import Mathlib

/-!
Verification of the skill-frontmatter-optimizer core
(`scripts/analyze_skill.py` and `scripts/generate_description.py`).

Strings are modelled as `List Char` (`Str`).  Python regular expressions are
modelled as explicit scanners; the scanners are structurally recursive on an
explicit fuel argument (always instantiated with the string length, which is
a strict upper bound on the number of scanning steps) so that every
definition evaluates inside the kernel.  Python's `\w`, `\b`, `\s`,
`str.lower`, `str.title` are modelled with their ASCII semantics, which is
faithful for all inputs the analysed scripts are designed for.
-/

namespace SkillOpt

set_option maxRecDepth 40000

/-- Strings as lists of characters. -/
abbrev Str := List Char

/-- Conversion from Lean string literals. -/
def str (x : String) : Str := x.data

/-- The apostrophe character (code 39), used by Python `repr` of strings. -/
def apos : Char := Char.ofNat 39

/-- The double-quote character (code 34). -/
def dquote : Char := Char.ofNat 34

/-- The opening-brace character (code 123). -/
def lbrace : Char := Char.ofNat 123

/-- The closing-brace character (code 125). -/
def rbrace : Char := Char.ofNat 125

/-- Python `\s` (whitespace) on ASCII: space, tab, newline, carriage
return, vertical tab, form feed. -/
def pyIsSpace (c : Char) : Bool :=
  c = ' ' || c = '\t' || c = '\n' || c = '\r' || c = Char.ofNat 11 || c = Char.ofNat 12

/-- ASCII lowercase letter `a`-`z`. -/
def isLowerAZ (c : Char) : Bool := 'a' ≤ c && c ≤ 'z'

/-- ASCII uppercase letter `A`-`Z`. -/
def isUpperAZ (c : Char) : Bool := 'A' ≤ c && c ≤ 'Z'

/-- ASCII letter. -/
def isAlphaAZ (c : Char) : Bool := isLowerAZ c || isUpperAZ c

/-- ASCII digit. -/
def isDigitC (c : Char) : Bool := '0' ≤ c && c ≤ '9'

/-- Python `\w` (word character) on ASCII: letter, digit or underscore. -/
def isWordC (c : Char) : Bool := isAlphaAZ c || isDigitC c || c = '_'

/-- Python `str.lower` on one ASCII character. -/
def lowerC (c : Char) : Char :=
  if isUpperAZ c then Char.ofNat (c.toNat + 32) else c

/-- Python `str.upper` on one ASCII character. -/
def upperC (c : Char) : Char :=
  if isLowerAZ c then Char.ofNat (c.toNat - 32) else c

/-- Python `str.lower`. -/
def lowerS (s : Str) : Str := s.map lowerC

/-- Helper for `pyTitle`: the boolean records whether the previous character
was a letter (Python capitalises a letter that follows a non-letter and
lowercases every other letter). -/
def pyTitleAux : Bool → Str → Str
  | _, [] => []
  | prevAlpha, c :: cs =>
    if isAlphaAZ c then
      (if prevAlpha then lowerC c else upperC c) :: pyTitleAux true cs
    else
      c :: pyTitleAux false cs

/-- Python `str.title` (ASCII). -/
def pyTitle (s : Str) : Str := pyTitleAux false s

/-- Python `str.capitalize` (ASCII): first character uppercased, the rest
lowercased. -/
def pyCapitalize : Str → Str
  | [] => []
  | c :: cs => upperC c :: lowerS cs

/-- Python substring test `needle in hay` (also `re.search` of a literal);
an empty needle is contained in everything. -/
def hasSub (n : Str) : Str → Bool
  | [] => n.isEmpty
  | c :: t => n.isPrefixOf (c :: t) || hasSub n t

/-- Occurrence of `s` as a contiguous segment of `t`. -/
def SubSeg (s t : Str) : Prop := ∃ u v, t = u ++ s ++ v

/-- Python `sep.join(parts)`. -/
def joinSep (sep : Str) : List Str → Str
  | [] => []
  | [x] => x
  | x :: y :: t => x ++ sep ++ joinSep sep (y :: t)

/-- Drops the longest suffix all of whose characters satisfy `p`
(the core of Python `rstrip`). -/
def rdropWhile (p : Char → Bool) (s : Str) : Str :=
  (s.reverse.dropWhile p).reverse

/-- Python `str.strip()` (no argument: strips whitespace on both sides). -/
def pyStrip (s : Str) : Str :=
  rdropWhile pyIsSpace (s.dropWhile pyIsSpace)

/-- Python `str.rstrip(chars)`. -/
def pyRStrip (chars : List Char) (s : Str) : Str :=
  rdropWhile (fun c => chars.contains c) s

/-- Python `str.lstrip(chars)`. -/
def pyLStrip (chars : List Char) (s : Str) : Str :=
  s.dropWhile (fun c => chars.contains c)

/-- Helper for `collapseWS`: the boolean records whether the previous
character was whitespace (in which case further whitespace is dropped). -/
def collapseAux : Bool → Str → Str
  | _, [] => []
  | prevWS, c :: cs =>
    if pyIsSpace c then
      (if prevWS then collapseAux true cs else ' ' :: collapseAux true cs)
    else
      c :: collapseAux false cs

/-- Python `re.sub(r'\s+', ' ', s)`: every maximal whitespace run becomes a
single space. -/
def collapseWS (s : Str) : Str := collapseAux false s

/-- Decimal rendering of a natural number. -/
def numStr (n : Nat) : Str := (Nat.repr n).data

/-- Python `repr` of a list of strings, e.g. a rendering with brackets,
single quotes and comma-space separators. -/
def pyListRepr (l : List Str) : Str :=
  str "[" ++ joinSep (str ", ") (l.map (fun e => apos :: e ++ [apos])) ++ str "]"

/-- Dedup keeping the first occurrence of each element (the key order of a
Python `dict` / `collections.Counter` built by repeated insertion). -/
def dkf : List Str → List Str
  | [] => []
  | x :: xs => x :: (dkf xs).filter (fun y => y ≠ x)

/-- Python `sorted` on a list of strings (ascending lexicographic order on
code points, which is the linear order on `List Char`). -/
def sortStr (l : List Str) : List Str :=
  List.insertionSort (fun a b : Str => a ≤ b) l

/-! ## Fixed vocabularies (`analyze_skill.py` module constants) -/

/-- The `ACTION_VERBS` vocabulary (a Python set; only membership is used). -/
def ACTION_VERBS : List Str :=
  [str "create", str "build", str "generate", str "make", str "write", str "produce",
   str "edit", str "modify", str "update", str "change", str "fix", str "revise",
   str "analyze", str "extract", str "process", str "parse", str "read", str "examine",
   str "convert", str "transform", str "merge", str "split", str "combine",
   str "fill", str "complete", str "validate", str "verify", str "check",
   str "format", str "style", str "design", str "layout", str "render"]

/-- The alternatives of the `PRIMARY_EXTENSIONS` regex, in alternation
order. -/
def primAltsList : List Str :=
  [str "docx", str "xlsx", str "pdf", str "pptx", str "csv", str "tsv",
   str "json", str "xml", str "html"]

/-- The alternatives the `ALL_EXTENSIONS` regex adds after the primary
ones, in alternation order. -/
def extraAltsList : List Str :=
  [str "md", str "txt", str "py", str "js", str "ts", str "jsx", str "tsx",
   str "yaml", str "yml", str "png", str "jpg", str "jpeg", str "gif", str "svg"]

/-- The alternatives of the `ALL_EXTENSIONS` regex, in alternation order. -/
def allAltsList : List Str := primAltsList ++ extraAltsList

/-- The code/config extensions filtered out by `find_file_types`. -/
def codeExtList : List Str :=
  [str "py", str "js", str "ts", str "jsx", str "tsx", str "yaml", str "yml",
   str "md", str "txt"]

/-! ## Extension scanning (the two extension regexes)

`PRIMARY_EXTENSIONS.findall` / `ALL_EXTENSIONS.findall` scan for
`\.(alt1|alt2|...)\b`, case-insensitively.  At a literal dot the engine
tries the alternatives in order; an alternative matches when it is a
case-insensitive prefix of the rest and is followed by a non-word character
or the end of input (`\b` after a letter).  `findall` returns the captured
group, i.e. the matched alternative; the callers lowercase it, so the
scanner directly returns the (lowercase) alternative.  Scanning resumes
after the end of a match. -/

/-- Does alternative `a` match at the start of `s` (with trailing `\b`)? -/
def altMatches (a : Str) (s : Str) : Bool :=
  a.isPrefixOf (lowerS s) &&
    (match s.drop a.length with
     | [] => true
     | c :: _ => !isWordC c)

/-- First alternative of `alts` matching at the start of `s`. -/
def tryAlts (alts : List Str) (s : Str) : Option Str :=
  alts.find? (fun a => altMatches a s)

/-- Fuel-driven scanner for `\.(alts)\b`; the fuel bounds the number of
steps (one unit per character position visited). -/
def scanExtsF (alts : List Str) : Nat → Str → List Str
  | 0, _ => []
  | _ + 1, [] => []
  | f + 1, c :: cs =>
    if c = '.' then
      match tryAlts alts cs with
      | some a => a :: scanExtsF alts f (cs.drop a.length)
      | none => scanExtsF alts f cs
    else
      scanExtsF alts f cs

/-- `re.findall` for an extension regex over `s`. -/
def scanExts (alts : List Str) (s : Str) : List Str :=
  scanExtsF alts s.length s

/-- Source: `find_file_types` (analyze_skill.py lines 62-75).  First the
primary document extensions; on no match, all extensions, preferring
non-code/doc extensions when any exist. -/
def find_file_types (content : Str) : List Str :=
  let primary_matches := scanExts primAltsList content
  if primary_matches ≠ [] then
    sortStr (dkf primary_matches)
  else
    let all_matches := scanExts allAltsList content
    let extensions := dkf all_matches
    let doc_exts := extensions.filter (fun e => !(decide (e ∈ codeExtList)))
    if doc_exts ≠ [] then sortStr doc_exts else sortStr extensions

/-! ## Word tokenization (`\b[a-z]+\b` over the lowercased content) -/

/-- Fuel-driven tokenizer for `re.findall(r'\b[a-z]+\b', s)` (ASCII).  A
token is a maximal run of `a`-`z` whose neighbours on both sides are not
word characters.  The boolean argument records whether the previous
character was a word character (in which case no `\b` precedes the current
position). -/
def tokenizeF : Nat → Bool → Str → List Str
  | 0, _, _ => []
  | _ + 1, _, [] => []
  | f + 1, prevWord, c :: cs =>
    if isLowerAZ c && !prevWord then
      let run := (c :: cs).takeWhile isLowerAZ
      let rest := (c :: cs).dropWhile isLowerAZ
      match rest with
      | [] => [run]
      | d :: _ =>
        if isWordC d then tokenizeF f true rest
        else run :: tokenizeF f false rest
    else
      tokenizeF f (isWordC c) cs

/-- All `\b[a-z]+\b` tokens of `s`. -/
def tokenize (s : Str) : List Str := tokenizeF s.length false s

/-- The tokens of the lowercased content that lie in the action-verb
vocabulary (`found` in `find_action_verbs`), with multiplicities and in
text order. -/
def foundVerbs (content : Str) : List Str :=
  (tokenize (lowerS content)).filter (fun w => decide (w ∈ ACTION_VERBS))

/-- Index of the first occurrence of `x` in a list (the length of the
list when absent). -/
def idxOfStr (x : Str) : List Str → Nat
  | [] => 0
  | y :: t => if y = x then 0 else idxOfStr x t + 1

/-- The ordering realised by `Counter(found).most_common`: count
descending, ties broken by the index of the first occurrence in `found`
(the counter's keys are in first-occurrence order and `most_common` is a
stable descending sort by count — CPython documents `heapq.nlargest` as
equivalent to `sorted(items, key=count, reverse=True)[:n]`). -/
def mcR (found : List Str) : Str → Str → Prop := fun a b =>
  found.count b < found.count a ∨
    (found.count a = found.count b ∧ idxOfStr a found ≤ idxOfStr b found)

instance (found : List Str) (a b : Str) : Decidable (mcR found a b) :=
  inferInstanceAs (Decidable (found.count b < found.count a ∨
    (found.count a = found.count b ∧ idxOfStr a found ≤ idxOfStr b found)))

/-- Source: `find_action_verbs` (analyze_skill.py lines 78-84): the
vocabulary tokens of the lowercased content, ranked by
`Counter(found).most_common(10)`. -/
def find_action_verbs (content : Str) : List Str :=
  (List.insertionSort (mcR (foundVerbs content)) (dkf (foundVerbs content))).take 10

/-! ## Body and heading extraction -/

/-- Index of the first occurrence of `pat` in a string, if any. -/
def findSubIdx (pat : Str) : Str → Option Nat
  | [] => if pat.isEmpty then some 0 else none
  | c :: t => if pat.isPrefixOf (c :: t) then some 0 else (findSubIdx pat t).map (· + 1)

/-- Source: `extract_body` (analyze_skill.py lines 56-59), the regex
`^---\n.*?\n---\n?(.*)` with DOTALL: after the opening delimiter, the
non-greedy part ends at the first `\n---`; an optional newline after the
closing delimiter is skipped; on no match the content is returned
unchanged. -/
def extract_body (content : Str) : Str :=
  if (str "---\n").isPrefixOf content then
    let rest := content.drop 4
    match findSubIdx (str "\n---") rest with
    | some i =>
      let after := rest.drop (i + 4)
      match after with
      | '\n' :: t => t
      | _ => after
    | none => content
  else content

/-- Fuel-driven scanner for `re.findall(r'^#{1,3}\s+(.+)$', s, MULTILINE)`.
The boolean records whether the current position is a line start (where `^`
matches).  At a line start with 1-3 hashes followed by whitespace, the
greedy `\s+` takes the maximal whitespace run; `(.+)$` then captures the
rest of the line it stops on (if the run reaches the end of input, the
engine backtracks and the capture is the trailing newline-free part of the
run, which must leave at least one whitespace character matched by `\s+`).
Scanning resumes after the capture. -/
def headingsF : Nat → Bool → Str → List Str
  | 0, _, _ => []
  | _ + 1, _, [] => []
  | f + 1, atLineStart, c :: cs =>
    if atLineStart then
      let hashes := (c :: cs).takeWhile (fun x => x = '#')
      let k := hashes.length
      if 1 ≤ k ∧ k ≤ 3 then
        let after := (c :: cs).drop k
        let ws := after.takeWhile pyIsSpace
        if ws ≠ [] then
          let afterWs := after.drop ws.length
          match afterWs with
          | _ :: _ =>
            let cap := afterWs.takeWhile (fun x => x ≠ '\n')
            cap :: headingsF f false (afterWs.drop cap.length)
          | [] =>
            let tail := (ws.reverse.takeWhile (fun x => x ≠ '\n')).reverse
            if tail.length = ws.length then
              (if 2 ≤ ws.length then [ws.drop 1] else [])
            else
              (if tail ≠ [] then [tail] else [])
        else
          headingsF f (c = '\n') cs
      else
        headingsF f (c = '\n') cs
    else
      headingsF f (c = '\n') cs

/-- Source: `extract_headings` (analyze_skill.py lines 87-90). -/
def extract_headings (content : Str) : List Str :=
  headingsF content.length true content

/-! ## Scenario estimation -/

/-- Meta-heading fragments skipped by `estimate_scenarios`. -/
def skipPatterns : List Str :=
  [str "overview", str "guide", str "introduction", str "quick start",
   str "getting started", str "reference", str "installation", str "setup",
   str "requirements", str "prerequisites", str "python", str "javascript",
   str "bash", str "example", str "output"]

/-- Workflow keywords looked for in headings. -/
def workflowKeywords : List Str :=
  [str "creating", str "editing", str "reading", str "analyzing",
   str "converting", str "processing", str "filling", str "generating",
   str "building", str "extracting", str "merging", str "splitting",
   str "validating", str "formatting"]

/-- The character class of the code-likeness test on headings (parentheses,
braces, square brackets, double quote, single quote, equals, angle
brackets). -/
def codeLikeChars : List Char :=
  ['(', ')', lbrace, rbrace, '[', ']', dquote, apos, '=', '<', '>']

/-- The heading loop of `estimate_scenarios`: skip meta-headings and
code-like headings; on the first workflow keyword contained in the
lowercased heading, keep the stripped heading (with trailing colons
removed) when its length is strictly between 5 and 50. -/
def scenariosFromHeadings : List Str → List Str
  | [] => []
  | h :: t =>
    let hl := lowerS h
    if skipPatterns.any (fun sk => hasSub sk hl) then scenariosFromHeadings t
    else if h.any (fun c => codeLikeChars.contains c) then scenariosFromHeadings t
    else
      match workflowKeywords.find? (fun kw => hasSub kw hl) with
      | some _ =>
        let clean := pyRStrip [':'] (pyStrip h)
        if 5 < clean.length ∧ clean.length < 50 then clean :: scenariosFromHeadings t
        else scenariosFromHeadings t
      | none => scenariosFromHeadings t

/-- The verb stems scanned for in the body, in source order. -/
def verbStems : List Str :=
  [str "creat", str "edit", str "extract", str "merg", str "split",
   str "fill", str "generat", str "convert", str "read", str "analyz"]

/-- The stem-to-scenario table of `estimate_scenarios`. -/
def verbToScenario : List (Str × Str) :=
  [(str "creat", str "Creating new content"),
   (str "edit", str "Editing existing content"),
   (str "extract", str "Extracting data"),
   (str "merg", str "Merging files"),
   (str "split", str "Splitting documents"),
   (str "fill", str "Filling forms"),
   (str "generat", str "Generating output"),
   (str "convert", str "Converting formats"),
   (str "read", str "Reading content"),
   (str "analyz", str "Analyzing data")]

/-- Source: `estimate_scenarios` (analyze_skill.py lines 104-157).  Note
`verbs_found` is a CPython set of strings, whose iteration order is
hash-seed dependent; it is modelled here in the stems' insertion order.  No
settled claim depends on which stems are chosen when they are truncated. -/
def estimate_scenarios (headings : List Str) (body : Str) : List Str :=
  let scenarios := scenariosFromHeadings headings
  let scenarios :=
    if scenarios.length < 3 then
      let verbs_found := verbStems.filter (fun v => hasSub v (lowerS body))
      scenarios ++ (verbs_found.take (5 - scenarios.length)).filterMap
        (fun v => List.lookup v verbToScenario)
    else scenarios
  scenarios.take 5

/-! ## Quality checks and the analysis record -/

/-- Count of the non-overlapping matches of `\(\d+\)` in `s` (fuel-driven,
one unit of fuel per position visited). -/
def enumCountF : Nat → Str → Nat
  | 0, _ => 0
  | _ + 1, [] => 0
  | f + 1, c :: cs =>
    if c = '(' then
      let ds := cs.takeWhile isDigitC
      match ds, cs.drop ds.length with
      | _ :: _, ')' :: rest => 1 + enumCountF f rest
      | _, _ => enumCountF f cs
    else enumCountF f cs

/-- `len(re.findall(r'\(\d+\)', s))`. -/
def enumCount (s : Str) : Nat := enumCountF s.length s

/-- The trigger-phrase test of the quality checks (analyze_skill.py line
204): `re.search(r'(use this skill when|when claude needs|use when)',
desc.lower())`. -/
def hasTriggerQuality (desc : Str) : Bool :=
  hasSub (str "use this skill when") (lowerS desc) ||
  hasSub (str "when claude needs") (lowerS desc) ||
  hasSub (str "use when") (lowerS desc)

/-- The message of the file-types quality issue, with the Python `repr` of
the list interpolated. -/
def ftIssueMsg (file_types : List Str) : Str :=
  str "File types " ++ pyListRepr file_types ++ str " not in description"

/-- Source: the quality checks of `analyze_skill` (analyze_skill.py lines
194-211), a pure function of the current description and the detected file
types. -/
def quality_issues_of (desc : Str) (file_types : List Str) : List Str :=
  (if desc.length < 50 then [str "Description too short (< 50 chars)"] else []) ++
  (if 1024 < desc.length then
    [str "Description too long (" ++ numStr desc.length ++ str " > 1024 chars)"] else []) ++
  (if desc.contains '<' || desc.contains '>' then
    [str "Contains forbidden angle brackets"] else []) ++
  (if !hasTriggerQuality desc then
    [str "Missing trigger phrase (Use this skill when...)"] else []) ++
  (if enumCount desc = 0 then
    [str "No enumerated scenarios (1), (2), (3)..."] else []) ++
  (if file_types.isEmpty || !(file_types.any (fun ext => hasSub ext (lowerS desc))) then
    (if file_types ≠ [] then [ftIssueMsg file_types] else [])
  else [])

/-- The analysis record built by `analyze_skill` (the fields consumed by
the generator, scorer, advisor and quality checks; the technology flags,
resource-folder booleans and body line count are I/O-side data none of the
claims touch and are not modelled). -/
structure AnalysisResult where
  name : Str
  current_description : Str
  file_types : List Str
  action_verbs : List Str
  headings : List Str
  estimated_scenarios : List Str
  quality_issues : List Str

/-- Source: `analyze_skill` (analyze_skill.py lines 160-212), as a function
of the document.  Reading `SKILL.md` and decoding its YAML frontmatter is
external I/O: `name` and `desc` are the values `frontmatter.get('name',
...)` and `frontmatter.get('description', '')` the decode produced, and
`content` is the file text.  As in the source, file types are extracted
from the full content and action verbs, headings and scenarios from the
body. -/
def analyze_core (name desc content : Str) : AnalysisResult :=
  let body := extract_body content
  let headings := extract_headings body
  { name := name
    current_description := desc
    file_types := find_file_types content
    action_verbs := find_action_verbs body
    headings := headings
    estimated_scenarios := estimate_scenarios headings body
    quality_issues := quality_issues_of desc (find_file_types content) }

/-! ## Skill classification (`generate_description.py`) -/

/-- The document-format subset tested by the classifier, in source order. -/
def docFormatList : List Str :=
  [str "docx", str "pdf", str "xlsx", str "pptx", str "csv"]

/-- Keywords whose presence in the joined lowercased headings selects the
knowledge-reference archetype. -/
def krKeywords : List Str :=
  [str "reference", str "documentation", str "api", str "schema"]

/-- Keywords whose presence in the joined lowercased headings selects the
workflow-automation archetype. -/
def waKeywords : List Str :=
  [str "workflow", str "step", str "process", str "pipeline"]

/-- Source: `classify_skill_type` (generate_description.py lines 48-66). -/
def classify_skill_type (a : AnalysisResult) : Str :=
  let file_types := a.file_types
  let headings := a.headings.map lowerS
  if !file_types.isEmpty && file_types.any (fun e => decide (e ∈ docFormatList)) then
    str "file_processor"
  else if krKeywords.any (fun kw => hasSub kw (joinSep (str " ") headings)) then
    str "knowledge_reference"
  else if waKeywords.any (fun kw => hasSub kw (joinSep (str " ") headings)) then
    str "workflow_automation"
  else
    str "tool_integration"

/-! ## Description fragments -/

/-- Hyphens and underscores of the skill name replaced by spaces. -/
def readable (name : Str) : Str :=
  name.map (fun c => if c = '-' ∨ c = '_' then ' ' else c)

/-- Python `', '.join(l[:-1]) + ', and ' + l[-1]`, used for two or more
verbs. -/
def lastJoin (l : List Str) : Str :=
  joinSep (str ", ") l.dropLast ++ str ", and " ++ l.getLastD []

/-- Source: `generate_capability_phrase` (generate_description.py lines
69-89). -/
def generate_capability_phrase (a : AnalysisResult) : Str :=
  let verbs := a.action_verbs.take 4
  let file_types := a.file_types
  let readable_name := readable a.name
  let verb_phrase :=
    if verbs ≠ [] then
      pyTitle (if 1 < verbs.length then lastJoin verbs else verbs.headD [])
    else str "Processing and manipulation"
  let file_phrase :=
    if file_types ≠ [] then
      str "for " ++ joinSep (str ", ") ((file_types.take 3).map (fun e => '.' :: e)) ++
        str " files"
    else str "for " ++ readable_name
  verb_phrase ++ str " " ++ file_phrase

/-- Source: `generate_file_types_phrase` (generate_description.py lines
92-101); computed by `generate_optimized_description` but not used by any
of its inline templates. -/
def generate_file_types_phrase (file_types : List Str) : Str :=
  if file_types = [] then []
  else
    let extensions := (file_types.take 4).map (fun e => '.' :: e)
    let extensions :=
      if 4 < file_types.length then extensions ++ [str "etc"] else extensions
    str "(" ++ joinSep (str ", ") extensions ++ str ")"

/-- The enumeration indices `enumerate(_, 1)` produces for a list capped at
four elements. -/
def enumIdx : List Nat := [1, 2, 3, 4]

/-- Source: `generate_scenarios` (generate_description.py lines 104-128). -/
def generate_scenarios (a : AnalysisResult) : Str :=
  let scenarios := a.estimated_scenarios
  let verbs := a.action_verbs
  if scenarios ≠ [] then
    joinSep (str ", ") ((enumIdx.zip (scenarios.take 4)).map (fun p =>
      let sc := pyRStrip ['.'] (pyStrip p.2)
      let sc := if 50 < sc.length then sc.take 47 ++ str "..." else sc
      str "(" ++ numStr p.1 ++ str ") " ++ sc))
  else if verbs ≠ [] then
    joinSep (str ", ") ((enumIdx.zip (verbs.take 4)).map (fun p =>
      str "(" ++ numStr p.1 ++ str ") " ++ pyCapitalize p.2 ++ str "ing content"))
  else
    str "(1) Processing, (2) Analyzing, (3) Generating output"

/-- Source: `generate_trigger_context` (generate_description.py lines
131-141). -/
def generate_trigger_context (a : AnalysisResult) : Str :=
  let file_types := a.file_types
  if file_types ≠ [] then
    str "working with " ++ joinSep (str ", ") ((file_types.take 3).map (fun e => '.' :: e)) ++
      str " files"
  else
    str "handling " ++ readable a.name ++ str " tasks"

/-- Source: `generate_catchall` (generate_description.py lines 144-148). -/
def generate_catchall (a : AnalysisResult) : Str :=
  str "or any other " ++ readable a.name ++ str " task"

/-- Keywords qualifying a heading as an example trigger. -/
def exampleKeywords : List Str :=
  [str "creating", str "editing", str "reading", str "converting",
   str "processing", str "building"]

/-- Source: `generate_examples` (generate_description.py lines 151-170). -/
def generate_examples (a : AnalysisResult) : Str :=
  let examples := ((a.headings.take 6).filter
      (fun h => exampleKeywords.any (fun kw => hasSub kw (lowerS h)))).map
    (fun h => pyStrip (lowerS h))
  if examples ≠ [] then
    joinSep (str ", ") (examples.take 4)
  else if a.file_types ≠ [] then
    str "creating, editing, or analyzing ." ++ a.file_types.headD [] ++ str " files"
  else
    str "processing, transforming, or generating content"

/-! ## Template assembly and post-processing -/

def MAX_DESCRIPTION_LENGTH : Nat := 1024

/-- The template assembly step of `generate_optimized_description`
(generate_description.py lines 186-209): archetype-selected f-string with
the fragments substituted. -/
def assembled_description (a : AnalysisResult) : Str :=
  let skill_type := classify_skill_type a
  let capability := generate_capability_phrase a
  let scenarios := generate_scenarios a
  let trigger := generate_trigger_context a
  let catchall := generate_catchall a
  let examples := generate_examples a
  if skill_type = str "file_processor" then
    capability ++ str ". Use this skill when " ++ trigger ++ str " for: " ++
      scenarios ++ str ", " ++ catchall
  else if skill_type = str "knowledge_reference" then
    capability ++ str ". Use when users ask about " ++ trigger ++
      str ". Provides authoritative guidance for " ++ examples ++ str "."
  else if skill_type = str "workflow_automation" then
    capability ++ str ". Use this skill when " ++ trigger ++ str " for: " ++
      scenarios ++ str ". (examples include " ++ examples ++ str ")"
  else
    capability ++ str ". Use this skill when " ++ trigger ++ str " for: " ++
      scenarios ++ str ", " ++ catchall

/-- The literal head of the `\(examples include[^)]+\)` pattern. -/
def exLit : Str := str "(examples include"

/-- Fuel-driven `re.sub(r'\(examples include[^)]+\)', '', s)`: at a match
(the literal head, at least one non-`)` character, a closing `)`) the whole
match is dropped and scanning resumes after it. -/
def stripExamplesF : Nat → Str → Str
  | 0, s => s
  | _ + 1, [] => []
  | f + 1, c :: cs =>
    if exLit.isPrefixOf (c :: cs) then
      let rest := (c :: cs).drop exLit.length
      let nc := rest.takeWhile (fun x => x ≠ ')')
      match nc, rest.drop nc.length with
      | _ :: _, ')' :: tail => stripExamplesF f tail
      | _, _ => c :: stripExamplesF f cs
    else c :: stripExamplesF f cs

def stripExamples (s : Str) : Str := stripExamplesF s.length s

/-- Length of a match of `\(\d+\)[^,]+,?\s*` at the start of `s`, if any:
an opening parenthesis, one or more digits, a closing parenthesis, a
maximal non-empty run of non-commas, an optional comma, and the maximal
whitespace run after it. -/
def scenMatchLen (s : Str) : Option Nat :=
  match s with
  | '(' :: rest =>
    let ds := rest.takeWhile isDigitC
    if ds.isEmpty then none
    else
      match rest.drop ds.length with
      | ')' :: rest2 =>
        let nc := rest2.takeWhile (fun x => x ≠ ',')
        if nc.isEmpty then none
        else
          match rest2.drop nc.length with
          | ',' :: rest3 =>
            some (1 + ds.length + 1 + nc.length + 1 + (rest3.takeWhile pyIsSpace).length)
          | rest3 =>
            some (1 + ds.length + 1 + nc.length + (rest3.takeWhile pyIsSpace).length)
      | _ => none
  | _ => none

/-- Fuel-driven `re.sub(r'\(\d+\)[^,]+,?\s*', '', s, count)`: the first
`count` matches are removed, scanning left to right and resuming after each
removed match. -/
def removeScensF : Nat → Nat → Str → Str
  | 0, _, s => s
  | _ + 1, 0, s => s
  | f + 1, count + 1, s =>
    match s with
    | [] => []
    | c :: cs =>
      match scenMatchLen (c :: cs) with
      | some k => removeScensF f count ((c :: cs).drop k)
      | none => c :: removeScensF f (count + 1) cs

def removeScens (count : Nat) (s : Str) : Str := removeScensF s.length count s

/-- The post-processing of `generate_optimized_description`
(generate_description.py lines 211-225): strip the examples parenthetical
when over the limit, then drop up to two enumerated scenario items when
still over the limit, then collapse whitespace, strip, and strip trailing
commas/periods. -/
def postprocess (d0 : Str) : Str :=
  let d1 := if MAX_DESCRIPTION_LENGTH < d0.length then pyStrip (stripExamples d0) else d0
  let d2 := if MAX_DESCRIPTION_LENGTH < d1.length then removeScens 2 d1 else d1
  let d3 := pyStrip (collapseWS d2)
  pyRStrip [',', '.'] d3

/-- Source: `generate_optimized_description` (generate_description.py
lines 173-225). -/
def generate_optimized_description (a : AnalysisResult) : Str :=
  postprocess (assembled_description a)

/-! ## Scoring and advice -/

/-- The trigger test of the scorer (generate_description.py line 272):
`use (this skill )?when|when claude needs`. -/
def hasTriggerScore (desc : Str) : Bool :=
  hasSub (str "use this skill when") (lowerS desc) ||
  hasSub (str "use when") (lowerS desc) ||
  hasSub (str "when claude needs") (lowerS desc)

/-- Length component of the score (10, 5 or 0 points). -/
def score_length_pts (desc : Str) : Nat :=
  if 100 ≤ desc.length ∧ desc.length ≤ 800 then 10
  else if 50 ≤ desc.length ∧ desc.length ≤ 1000 then 5
  else 0

/-- Trigger-phrase component of the score (20 points). -/
def score_trigger_pts (desc : Str) : Nat :=
  if hasTriggerScore desc then 20 else 0

/-- Enumerated-scenarios component of the score (20, 10 or 0 points). -/
def score_enum_pts (desc : Str) : Nat :=
  if 3 ≤ enumCount desc then 20
  else if 1 ≤ enumCount desc then 10
  else 0

/-- File-types component of the score (15 points; granted outright when no
file types were detected). -/
def score_filetypes_pts (desc : Str) (file_types : List Str) : Nat :=
  if file_types ≠ [] then
    if 0 < (file_types.filter (fun ext => hasSub ('.' :: ext) (lowerS desc))).length
    then 15 else 0
  else 15

/-- Catch-all component of the score (10 points). -/
def score_catchall_pts (desc : Str) : Nat :=
  if hasSub (str "or any other") (lowerS desc) || hasSub (str "or other") (lowerS desc)
  then 10 else 0

/-- Examples component of the score (10 points); `examples? include` makes
the alternatives `example include` and `examples include`. -/
def score_examples_pts (desc : Str) : Nat :=
  if hasSub (str "example include") (lowerS desc) ||
     hasSub (str "examples include") (lowerS desc) ||
     hasSub (str "such as") (lowerS desc) ||
     hasSub (str "e.g.") (lowerS desc) ||
     hasSub (str "including") (lowerS desc)
  then 10 else 0

/-- The anti-pattern test of the scorer: a body-reference phrase or an
angle bracket. -/
def hasAntipattern (desc : Str) : Bool :=
  (hasSub (str "see skill.md") (lowerS desc) ||
   hasSub (str "refer to") (lowerS desc) ||
   hasSub (str "see below") (lowerS desc)) ||
  (desc.contains '<' || desc.contains '>')

/-- Anti-pattern component of the score (15 points when clean). -/
def score_antipattern_pts (desc : Str) : Nat :=
  if hasAntipattern desc then 0 else 15

/-- Source: `score_description` (generate_description.py lines 258-308);
the empty description returns 0 before any component is evaluated. -/
def score_description (description : Str) (a : AnalysisResult) : Nat :=
  if description.isEmpty then 0
  else
    score_length_pts description + score_trigger_pts description +
    score_enum_pts description + score_filetypes_pts description a.file_types +
    score_catchall_pts description + score_examples_pts description +
    score_antipattern_pts description

/-- The trigger test of the advisor (generate_description.py line 233):
`use (this skill )?when` only. -/
def hasTriggerAdvisor (current : Str) : Bool :=
  hasSub (str "use this skill when") (lowerS current) ||
  hasSub (str "use when") (lowerS current)

/-- Source: `suggest_improvements` (generate_description.py lines 228-255);
the `generated` argument is accepted but never read, as in the source. -/
def suggest_improvements (current generated : Str) (a : AnalysisResult) : List Str :=
  (if !hasTriggerAdvisor current then
    [str "ADD trigger phrase: " ++ [apos] ++ str "Use this skill when..." ++ [apos]]
  else []) ++
  (if enumCount current = 0 then
    [str "ADD enumerated scenarios: (1) Creating, (2) Editing, etc."] else []) ++
  (let file_types := a.file_types
   if file_types ≠ [] then
     let missing_exts := file_types.filter (fun ext => !hasSub ('.' :: ext) (lowerS current))
     if missing_exts ≠ [] then
       [str "ADD file extensions: " ++
         joinSep (str ", ") ((missing_exts.take 3).map (fun e => '.' :: e))]
     else []
   else []) ++
  (if current.length < 100 then
    [str "EXPAND: Description is too short for reliable matching"] else []) ++
  (if 900 < current.length then
    [str "TRIM: Near character limit, prioritize triggers over features"] else []) ++
  (if hasSub (str "see skill.md") (lowerS current) ||
      hasSub (str "refer to") (lowerS current) ||
      hasSub (str "see below") (lowerS current) then
    [str "REMOVE: References to body content (body is invisible before triggering)"]
  else [])

/-- The generated-vs-current selection of `main` (generate_description.py
line 374): the generated description is used exactly when it scores
strictly higher. -/
def choose_description (current generated : Str) (a : AnalysisResult) : Str :=
  if score_description current a < score_description generated a then generated
  else current

/-- The comma-joined rendering of a file-type list as printed by the
analyzer (`', '.join(analysis['file_types'])`, bare extensions). -/
def render_plain (l : List Str) : Str := joinSep (str ", ") l

/-- The comma-joined rendering of a file-type list in dotted form
(`', '.join('.' + ext for ext in l)`). -/
def render_dotted (l : List Str) : Str := joinSep (str ", ") (l.map (fun e => '.' :: e))

/-- Modelled from the spec: an extension "appears (case-insensitive) as a
token" in a description when it is one of the `\b[a-z]+\b` word tokens of
the lowercased description.  Used only to state claim C6 as written; the
code itself uses a substring test. -/
def appears_as_token (ext : Str) (desc : Str) : Bool :=
  decide (ext ∈ tokenize (lowerS desc))

/-- Absence of raw angle brackets in a string. -/
def NoAngle (s : Str) : Prop := ∀ c ∈ s, c ≠ '<' ∧ c ≠ '>'

instance (s : Str) : Decidable (NoAngle s) := List.decidableBAll _ s

/-- A small sample analysis with no extracted signals. -/
def recEmpty : AnalysisResult := ⟨str "notes", [], [], [], [], [], []⟩

/-- A small sample analysis with one detected file type. -/
def recPdf : AnalysisResult := ⟨str "pdf-skill", [], [str "pdf"], [], [], [], []⟩

/-- A description satisfying the five scorer rubric checks (trigger,
enumeration, file types vacuously, scored length range, no anti-pattern)
while being shorter than 100 characters. -/
def exDesc5 : Str :=
  str "Use this skill when editing notes for: (1) Writing text, (2) Fixing typos, or other note tasks"

/-- A description satisfying every advisor check against `recPdf`. -/
def exDesc5w : Str :=
  str "Use this skill when working with .pdf files for: (1) Creating new documents, (2) Editing existing reports, (3) Analyzing data tables, or any other document processing task"

/-- A description mentioning a detected extension without its leading
dot. -/
def exDesc10 : Str := str "Handles pdf documents and forms"

/-! ## General string lemmas -/

theorem isPrefixOf_iff_ex (n h : Str) : n.isPrefixOf h = true ↔ ∃ v, h = n ++ v := by
  induction n generalizing h with
  | nil => simp [List.isPrefixOf]
  | cons a n ih =>
    cases h with
    | nil => simp [List.isPrefixOf]
    | cons b t =>
      simp only [List.isPrefixOf, Bool.and_eq_true, beq_iff_eq, ih, List.cons_append,
        List.cons.injEq]
      constructor
      · rintro ⟨rfl, v, rfl⟩; exact ⟨v, rfl, rfl⟩
      · rintro ⟨v, rfl, rfl⟩; exact ⟨rfl, v, rfl⟩

theorem hasSub_iff (n h : Str) : hasSub n h = true ↔ SubSeg n h := by
  induction h with
  | nil =>
    simp only [hasSub, SubSeg, List.isEmpty_iff]
    constructor
    · rintro rfl; exact ⟨[], [], rfl⟩
    · rintro ⟨u, v, huv⟩
      exact (List.append_eq_nil.mp (List.append_eq_nil.mp huv.symm).1).2
  | cons c t ih =>
    simp only [hasSub, Bool.or_eq_true, isPrefixOf_iff_ex, ih]
    constructor
    · rintro (⟨v, hv⟩ | ⟨u, v, rfl⟩)
      · exact ⟨[], v, by simpa using hv⟩
      · exact ⟨c :: u, v, rfl⟩
    · rintro ⟨u, v, huv⟩
      cases u with
      | nil => exact Or.inl ⟨v, by simpa using huv⟩
      | cons x u =>
        injection huv with h1 h2
        exact Or.inr ⟨u, v, h2⟩

theorem hasSub_of_subSeg {n h : Str} (hs : SubSeg n h) : hasSub n h = true :=
  (hasSub_iff n h).mpr hs

instance (s t : Str) : Decidable (SubSeg s t) :=
  decidable_of_iff (hasSub s t = true) (hasSub_iff s t)

theorem lowerS_append (a b : Str) : lowerS (a ++ b) = lowerS a ++ lowerS b :=
  List.map_append lowerC a b

/-- Characters fixed by `lowerC` stay put under `lowerS` of a segment
decomposition. -/
theorem subSeg_lowerS {n h : Str} (hn : lowerS n = n) (hs : SubSeg n h) :
    SubSeg n (lowerS h) := by
  rcases hs with ⟨u, v, rfl⟩
  exact ⟨lowerS u, lowerS v, by rw [lowerS_append, lowerS_append, hn]⟩

theorem dropWhile_length_le {α} (p : α → Bool) (l : List α) :
    (l.dropWhile p).length ≤ l.length := by
  induction l with
  | nil => simp
  | cons a t ih =>
    by_cases h : p a <;> simp [List.dropWhile_cons, h] <;> omega

theorem rdropWhile_length_le (p : Char → Bool) (s : Str) :
    (rdropWhile p s).length ≤ s.length := by
  have := dropWhile_length_le p s.reverse
  simpa [rdropWhile] using this

theorem pyStrip_length_le (s : Str) : (pyStrip s).length ≤ s.length :=
  le_trans (rdropWhile_length_le _ _) (dropWhile_length_le _ _)

theorem pyRStrip_length_le (chars : List Char) (s : Str) :
    (pyRStrip chars s).length ≤ s.length :=
  rdropWhile_length_le _ _

theorem collapseAux_length_le (b : Bool) (s : Str) :
    (collapseAux b s).length ≤ s.length := by
  induction s generalizing b with
  | nil => simp [collapseAux]
  | cons c t ih =>
    by_cases h : pyIsSpace c
    · by_cases hb : b <;> simp [collapseAux, h, hb] <;>
        exact le_trans (ih true) (by omega)
    · simpa [collapseAux, h] using ih false

theorem collapseWS_length_le (s : Str) : (collapseWS s).length ≤ s.length :=
  collapseAux_length_le false s

theorem stripExamplesF_length_le (f : Nat) (s : Str) :
    (stripExamplesF f s).length ≤ s.length := by
  induction f generalizing s with
  | zero => simp [stripExamplesF]
  | succ f ih =>
    cases s with
    | nil => simp [stripExamplesF]
    | cons c cs =>
      simp only [stripExamplesF]
      split
      · split
        · next nc tail hnc heq =>
          have h1 : (((c :: cs).drop exLit.length).drop
              (((c :: cs).drop exLit.length).takeWhile (fun x => x ≠ ')')).length).length
              = tail.length + 1 := by rw [heq]; simp
          have h2 := ih tail
          simp only [List.length_drop] at h1
          simp only [List.length_cons] at *
          omega
        · next _ _ _ =>
          simpa using ih cs
      · simpa using ih cs

theorem stripExamples_length_le (s : Str) : (stripExamples s).length ≤ s.length :=
  stripExamplesF_length_le _ _

theorem removeScensF_length_le (f count : Nat) (s : Str) :
    (removeScensF f count s).length ≤ s.length := by
  induction f generalizing count s with
  | zero => simp [removeScensF]
  | succ f ih =>
    cases count with
    | zero => simp [removeScensF]
    | succ count =>
      cases s with
      | nil => simp [removeScensF]
      | cons c cs =>
        simp only [removeScensF]
        split
        · next k _ =>
          have h2 := ih count ((c :: cs).drop k)
          have h3 : ((c :: cs).drop k).length ≤ (c :: cs).length := by
            simp [List.length_drop]
          omega
        · simpa using ih (count + 1) cs

theorem removeScens_length_le (count : Nat) (s : Str) :
    (removeScens count s).length ≤ s.length :=
  removeScensF_length_le _ _ _

theorem postprocess_length_le (d : Str) : (postprocess d).length ≤ d.length := by
  unfold postprocess
  have base : ∀ t : Str, (pyRStrip [',', '.'] (pyStrip (collapseWS t))).length ≤ t.length :=
    fun t => le_trans (pyRStrip_length_le _ _)
      (le_trans (pyStrip_length_le _) (collapseWS_length_le _))
  have step1 : ∀ t : Str,
      (if MAX_DESCRIPTION_LENGTH < t.length then pyStrip (stripExamples t) else t).length
        ≤ t.length := by
    intro t
    split
    · exact le_trans (pyStrip_length_le _) (stripExamples_length_le _)
    · exact le_refl _
  have step2 : ∀ t : Str,
      (if MAX_DESCRIPTION_LENGTH < t.length then removeScens 2 t else t).length ≤ t.length := by
    intro t
    split
    · exact removeScens_length_le _ _
    · exact le_refl _
  exact le_trans (base _) (le_trans (step2 _) (step1 _))

/-! ## Character lemmas -/

theorem toNat_ofNat_valid (n : Nat) (h : n < 55296) : (Char.ofNat n).toNat = n := by
  have hv : n.isValidChar := Or.inl h
  simp only [Char.ofNat, hv, dite_true, Char.ofNatAux, Char.toNat, UInt32.toNat]
  rfl

theorem char_eq_iff_toNat {a b : Char} : a = b ↔ a.toNat = b.toNat :=
  ⟨fun h => by rw [h], fun h => Char.eq_of_val_eq (UInt32.ext h)⟩

theorem isUpperAZ_toNat {c : Char} (h : isUpperAZ c = true) :
    65 ≤ c.toNat ∧ c.toNat ≤ 90 := by
  simp only [isUpperAZ, Bool.and_eq_true, decide_eq_true_eq] at h
  exact ⟨Char.le_def.mp h.1, Char.le_def.mp h.2⟩

theorem isLowerAZ_toNat {c : Char} (h : isLowerAZ c = true) :
    97 ≤ c.toNat ∧ c.toNat ≤ 122 := by
  simp only [isLowerAZ, Bool.and_eq_true, decide_eq_true_eq] at h
  exact ⟨Char.le_def.mp h.1, Char.le_def.mp h.2⟩

theorem lowerC_eq_or (c : Char) :
    lowerC c = c ∨ (97 ≤ (lowerC c).toNat ∧ (lowerC c).toNat ≤ 122) := by
  unfold lowerC
  split
  · next h =>
    have hb := isUpperAZ_toNat h
    right
    rw [toNat_ofNat_valid _ (by omega)]
    omega
  · exact Or.inl rfl

theorem upperC_eq_or (c : Char) :
    upperC c = c ∨ (65 ≤ (upperC c).toNat ∧ (upperC c).toNat ≤ 90) := by
  unfold upperC
  split
  · next h =>
    have hb := isLowerAZ_toNat h
    right
    rw [toNat_ofNat_valid _ (by omega)]
    omega
  · exact Or.inl rfl

theorem ne_angle_of_toNat {c : Char} (h1 : c.toNat ≠ 60) (h2 : c.toNat ≠ 62) :
    c ≠ '<' ∧ c ≠ '>' := by
  refine ⟨fun heq => ?_, fun heq => ?_⟩
  · subst heq; exact h1 (by decide)
  · subst heq; exact h2 (by decide)

/-! ## No-angle-bracket preservation -/

theorem noAngle_nil : NoAngle [] := by intro c hc; cases hc

theorem noAngle_cons {c : Char} {s : Str} (hc : c ≠ '<' ∧ c ≠ '>') (hs : NoAngle s) :
    NoAngle (c :: s) := by
  intro d hd
  rcases List.mem_cons.mp hd with rfl | hd2
  · exact hc
  · exact hs d hd2

theorem noAngle_append {a b : Str} (ha : NoAngle a) (hb : NoAngle b) :
    NoAngle (a ++ b) := by
  intro c hc
  rcases List.mem_append.mp hc with h | h
  · exact ha c h
  · exact hb c h

theorem noAngle_sub {s t : Str} (hsub : ∀ c ∈ t, c ∈ s) (hs : NoAngle s) : NoAngle t :=
  fun c hc => hs c (hsub c hc)

theorem lowerC_noAngle {c : Char} (h : c ≠ '<' ∧ c ≠ '>') :
    lowerC c ≠ '<' ∧ lowerC c ≠ '>' := by
  rcases lowerC_eq_or c with he | hr
  · rw [he]; exact h
  · exact ne_angle_of_toNat (by omega) (by omega)

theorem upperC_noAngle {c : Char} (h : c ≠ '<' ∧ c ≠ '>') :
    upperC c ≠ '<' ∧ upperC c ≠ '>' := by
  rcases upperC_eq_or c with he | hr
  · rw [he]; exact h
  · exact ne_angle_of_toNat (by omega) (by omega)

theorem noAngle_lowerS {s : Str} (hs : NoAngle s) : NoAngle (lowerS s) := by
  intro c hc
  rcases List.mem_map.mp hc with ⟨d, hd, rfl⟩
  exact lowerC_noAngle (hs d hd)

theorem noAngle_pyTitleAux {s : Str} (hs : NoAngle s) : ∀ b, NoAngle (pyTitleAux b s) := by
  induction s with
  | nil => intro b c hc; cases hc
  | cons a t ih =>
    intro b
    have hat : NoAngle t := fun d hd => hs d (List.mem_cons_of_mem a hd)
    have ha := hs a (List.mem_cons_self a t)
    simp only [pyTitleAux]
    split
    · split
      · exact noAngle_cons (lowerC_noAngle ha) (ih hat true)
      · exact noAngle_cons (upperC_noAngle ha) (ih hat true)
    · exact noAngle_cons ha (ih hat false)

theorem noAngle_pyTitle {s : Str} (hs : NoAngle s) : NoAngle (pyTitle s) :=
  noAngle_pyTitleAux hs false

theorem noAngle_pyCapitalize {s : Str} (hs : NoAngle s) : NoAngle (pyCapitalize s) := by
  cases s with
  | nil => exact noAngle_nil
  | cons a t =>
    exact noAngle_cons (upperC_noAngle (hs a (List.mem_cons_self a t)))
      (noAngle_lowerS fun d hd => hs d (List.mem_cons_of_mem a hd))

theorem noAngle_collapseAux {s : Str} (hs : NoAngle s) : ∀ b, NoAngle (collapseAux b s) := by
  induction s with
  | nil => intro b c hc; cases hc
  | cons a t ih =>
    intro b
    have hat : NoAngle t := fun d hd => hs d (List.mem_cons_of_mem a hd)
    have ha := hs a (List.mem_cons_self a t)
    simp only [collapseAux]
    split
    · split
      · exact ih hat true
      · exact noAngle_cons (by decide) (ih hat true)
    · exact noAngle_cons ha (ih hat false)

theorem mem_rdropWhile {p : Char → Bool} {s : Str} : ∀ c ∈ rdropWhile p s, c ∈ s := by
  intro c hc
  unfold rdropWhile at hc
  rw [List.mem_reverse] at hc
  have h2 := (@List.dropWhile_sublist Char s.reverse p).subset hc
  rwa [List.mem_reverse] at h2

theorem mem_pyStrip {s : Str} : ∀ c ∈ pyStrip s, c ∈ s := by
  intro c hc
  have h1 := mem_rdropWhile c hc
  exact (@List.dropWhile_sublist Char s pyIsSpace).subset h1

theorem mem_pyRStrip {chars : List Char} {s : Str} : ∀ c ∈ pyRStrip chars s, c ∈ s :=
  fun c hc => mem_rdropWhile c hc

theorem mem_stripExamplesF {f : Nat} : ∀ {s : Str}, ∀ c ∈ stripExamplesF f s, c ∈ s := by
  induction f with
  | zero => intro s c hc; simpa [stripExamplesF] using hc
  | succ f ih =>
    intro s
    cases s with
    | nil => intro c hc; simpa [stripExamplesF] using hc
    | cons a cs =>
      intro c hc
      simp only [stripExamplesF] at hc
      split at hc
      · split at hc
        · next nc tail hnc heq =>
          have h1 : c ∈ (')' :: tail) := List.mem_cons_of_mem _ (ih c hc)
          rw [← heq] at h1
          have h2 := List.drop_subset _ _ h1
          exact List.drop_subset _ _ h2
        · rcases List.mem_cons.mp hc with rfl | h2
          · exact List.mem_cons_self _ _
          · exact List.mem_cons_of_mem _ (ih c h2)
      · rcases List.mem_cons.mp hc with rfl | h2
        · exact List.mem_cons_self _ _
        · exact List.mem_cons_of_mem _ (ih c h2)

theorem mem_removeScensF {f : Nat} :
    ∀ {count : Nat} {s : Str}, ∀ c ∈ removeScensF f count s, c ∈ s := by
  induction f with
  | zero => intro count s c hc; simpa [removeScensF] using hc
  | succ f ih =>
    intro count s
    cases count with
    | zero => intro c hc; simpa [removeScensF] using hc
    | succ count =>
      cases s with
      | nil => intro c hc; simpa [removeScensF] using hc
      | cons a cs =>
        intro c hc
        simp only [removeScensF] at hc
        split at hc
        · exact List.drop_subset _ _ (ih c hc)
        · rcases List.mem_cons.mp hc with rfl | h2
          · exact List.mem_cons_self _ _
          · exact List.mem_cons_of_mem _ (ih c h2)

theorem noAngle_joinSep {sep : Str} (hsep : NoAngle sep) :
    ∀ {l : List Str}, (∀ x ∈ l, NoAngle x) → NoAngle (joinSep sep l) := by
  intro l
  induction l with
  | nil => intro _; exact noAngle_nil
  | cons x t ih =>
    intro hl
    cases t with
    | nil => simpa [joinSep] using hl x (by simp)
    | cons y u =>
      rw [joinSep]
      exact noAngle_append (noAngle_append (hl x (by simp)) hsep)
        (ih fun z hz => hl z (by simp [hz]))

theorem noAngle_getLastD {l : List Str} (hl : ∀ x ∈ l, NoAngle x) :
    NoAngle (l.getLastD []) := by
  cases l with
  | nil => exact noAngle_nil
  | cons a t =>
    rw [List.getLastD_eq_getLast?, List.getLast?_eq_getLast _ (by simp)]
    exact hl _ (List.getLast_mem _)

theorem noAngle_headD {l : List Str} (hl : ∀ x ∈ l, NoAngle x) :
    NoAngle (l.headD []) := by
  cases l with
  | nil => exact noAngle_nil
  | cons a t => exact hl a (by simp [List.headD])

theorem noAngle_readable {name : Str} (h : NoAngle name) : NoAngle (readable name) := by
  intro c hc
  rcases List.mem_map.mp hc with ⟨d, hd, rfl⟩
  by_cases hd2 : d = '-' ∨ d = '_'
  · simp only [hd2, if_true]; decide
  · simp only [hd2, if_false]; exact h d hd

theorem noAngle_capability {a : AnalysisResult} (hname : NoAngle a.name)
    (hverbs : ∀ v ∈ a.action_verbs, NoAngle v)
    (hft : ∀ e ∈ a.file_types, NoAngle e) :
    NoAngle (generate_capability_phrase a) := by
  simp only [generate_capability_phrase]
  have hverbs4 : ∀ v ∈ a.action_verbs.take 4, NoAngle v :=
    fun v hv => hverbs v (List.take_subset _ _ hv)
  refine noAngle_append (noAngle_append ?_ (by decide)) ?_
  · split
    · apply noAngle_pyTitle
      split
      · unfold lastJoin
        refine noAngle_append (noAngle_append ?_ (by decide)) ?_
        · exact noAngle_joinSep (by decide)
            (fun x hx => hverbs4 x (List.dropLast_subset _ hx))
        · exact noAngle_getLastD hverbs4
      · exact noAngle_headD hverbs4
    · decide
  · split
    · refine noAngle_append (noAngle_append (by decide) ?_) (by decide)
      apply noAngle_joinSep (by decide)
      intro x hx
      rcases List.mem_map.mp hx with ⟨e, he, rfl⟩
      exact noAngle_cons (by decide) (hft e (List.take_subset _ _ he))
    · exact noAngle_append (by decide) (noAngle_readable hname)

theorem noAngle_scenarios {a : AnalysisResult}
    (hsc : ∀ s ∈ a.estimated_scenarios, NoAngle s)
    (hverbs : ∀ v ∈ a.action_verbs, NoAngle v) :
    NoAngle (generate_scenarios a) := by
  simp only [generate_scenarios]
  split
  · apply noAngle_joinSep (by decide)
    intro x hx
    rcases List.mem_map.mp hx with ⟨p, hp, rfl⟩
    rcases List.of_mem_zip hp with ⟨hp1, hp2⟩
    have hsc2 : NoAngle (pyRStrip ['.'] (pyStrip p.2)) :=
      noAngle_sub (fun c hc => mem_pyStrip c (mem_pyRStrip c hc))
        (hsc p.2 (List.take_subset _ _ hp2))
    have hnum : NoAngle (numStr p.1) := by
      have : ∀ n ∈ enumIdx, NoAngle (numStr n) := by decide
      exact this p.1 hp1
    refine noAngle_append (noAngle_append (noAngle_append (by decide) hnum) (by decide)) ?_
    split
    · exact noAngle_append (noAngle_sub (fun c hc => List.take_subset _ _ hc) hsc2) (by decide)
    · exact hsc2
  · split
    · apply noAngle_joinSep (by decide)
      intro x hx
      rcases List.mem_map.mp hx with ⟨p, hp, rfl⟩
      rcases List.of_mem_zip hp with ⟨hp1, hp2⟩
      have hnum : NoAngle (numStr p.1) := by
        have : ∀ n ∈ enumIdx, NoAngle (numStr n) := by decide
        exact this p.1 hp1
      refine noAngle_append (noAngle_append (noAngle_append (noAngle_append
        (by decide) hnum) (by decide)) ?_) (by decide)
      exact noAngle_pyCapitalize (hverbs p.2 (List.take_subset _ _ hp2))
    · decide

theorem noAngle_trigger {a : AnalysisResult} (hname : NoAngle a.name)
    (hft : ∀ e ∈ a.file_types, NoAngle e) :
    NoAngle (generate_trigger_context a) := by
  simp only [generate_trigger_context]
  split
  · refine noAngle_append (noAngle_append (by decide) ?_) (by decide)
    apply noAngle_joinSep (by decide)
    intro x hx
    rcases List.mem_map.mp hx with ⟨e, he, rfl⟩
    exact noAngle_cons (by decide) (hft e (List.take_subset _ _ he))
  · exact noAngle_append (noAngle_append (by decide) (noAngle_readable hname)) (by decide)

theorem noAngle_catchall {a : AnalysisResult} (hname : NoAngle a.name) :
    NoAngle (generate_catchall a) := by
  simp only [generate_catchall]
  exact noAngle_append (noAngle_append (by decide) (noAngle_readable hname)) (by decide)

theorem noAngle_examples {a : AnalysisResult}
    (hh : ∀ h ∈ a.headings, NoAngle h)
    (hft : ∀ e ∈ a.file_types, NoAngle e) :
    NoAngle (generate_examples a) := by
  simp only [generate_examples]
  split
  · apply noAngle_joinSep (by decide)
    intro x hx
    have hx2 := List.take_subset _ _ hx
    rcases List.mem_map.mp hx2 with ⟨h, hmem, rfl⟩
    have hmem2 : h ∈ a.headings.take 6 := List.mem_of_mem_filter hmem
    have hmem3 := List.take_subset _ _ hmem2
    exact noAngle_sub (fun c hc => mem_pyStrip c hc) (noAngle_lowerS (hh h hmem3))
  · split
    · refine noAngle_append (noAngle_append (by decide) ?_) (by decide)
      exact noAngle_headD hft
    · decide

theorem noAngle_assembled {a : AnalysisResult} (hname : NoAngle a.name)
    (hverbs : ∀ v ∈ a.action_verbs, NoAngle v)
    (hft : ∀ e ∈ a.file_types, NoAngle e)
    (hh : ∀ h ∈ a.headings, NoAngle h)
    (hsc : ∀ s ∈ a.estimated_scenarios, NoAngle s) :
    NoAngle (assembled_description a) := by
  have c1 := noAngle_capability hname hverbs hft
  have c2 := noAngle_scenarios hsc hverbs
  have c3 := noAngle_trigger hname hft
  have c4 := noAngle_catchall hname
  have c5 := noAngle_examples hh hft
  simp only [assembled_description]
  split
  · exact noAngle_append (noAngle_append (noAngle_append (noAngle_append
      (noAngle_append (noAngle_append c1 (by decide)) c3) (by decide)) c2)
      (by decide)) c4
  · split
    · exact noAngle_append (noAngle_append (noAngle_append (noAngle_append
        (noAngle_append c1 (by decide)) c3) (by decide)) c5) (by decide)
    · split
      · exact noAngle_append (noAngle_append (noAngle_append (noAngle_append
          (noAngle_append (noAngle_append (noAngle_append c1 (by decide)) c3)
          (by decide)) c2) (by decide)) c5) (by decide)
      · exact noAngle_append (noAngle_append (noAngle_append (noAngle_append
          (noAngle_append (noAngle_append c1 (by decide)) c3) (by decide)) c2)
          (by decide)) c4

theorem mem_stripExamples {s : Str} : ∀ c ∈ stripExamples s, c ∈ s := by
  intro c hc
  exact mem_stripExamplesF c hc

theorem mem_removeScens {n : Nat} {s : Str} : ∀ c ∈ removeScens n s, c ∈ s := by
  intro c hc
  exact mem_removeScensF c hc

theorem noAngle_postprocess {d : Str} (hd : NoAngle d) : NoAngle (postprocess d) := by
  have step1 : ∀ t : Str, NoAngle t →
      NoAngle (if MAX_DESCRIPTION_LENGTH < t.length then pyStrip (stripExamples t) else t) := by
    intro t ht
    split
    · exact noAngle_sub (fun c hc => mem_stripExamples c (mem_pyStrip c hc)) ht
    · exact ht
  have step2 : ∀ t : Str, NoAngle t →
      NoAngle (if MAX_DESCRIPTION_LENGTH < t.length then removeScens 2 t else t) := by
    intro t ht
    split
    · exact noAngle_sub (fun c hc => mem_removeScens c hc) ht
    · exact ht
  simp only [postprocess]
  exact noAngle_sub (fun c hc => mem_pyRStrip c hc)
    (noAngle_sub (fun c hc => mem_pyStrip c hc)
      (noAngle_collapseAux (step2 _ (step1 _ hd)) false))

/-! ## Claim C6 — the file-types quality issue -/

theorem ftIssueMsg_head (ft : List Str) : (ftIssueMsg ft).head? = some 'F' := rfl

theorem ne_of_head? {s t : Str} (h : s.head? ≠ t.head?) : s ≠ t :=
  fun he => h (by rw [he])

theorem mem_ite_singleton (c : Prop) [Decidable c] (m x : Str) :
    (x ∈ if c then [m] else []) ↔ (c ∧ x = m) := by
  split
  · next h => simp [h]
  · next h => simp [h]

theorem mem_ite_list (c : Prop) [Decidable c] (l : List Str) (x : Str) :
    (x ∈ if c then l else []) ↔ (c ∧ x ∈ l) := by
  split
  · next h => simp [h]
  · next h => simp [h]

/-- C6 (counterexample): the claim "the issue is reported iff file types
were detected and none of them appears case-insensitively as a token in
the description" is false under the token reading: with detected file
types `["pdf"]` and the description "works on xpdfy stuff", "pdf" does not
occur as a word token, yet no issue is raised, because the code tests bare
substring containment and "xpdfy" contains "pdf". -/
theorem claim6_counterexample :
    find_file_types (str "a .pdf form") ≠ [] ∧
    (∀ ext ∈ find_file_types (str "a .pdf form"),
      appears_as_token ext (str "works on xpdfy stuff") = false) ∧
    ftIssueMsg (find_file_types (str "a .pdf form")) ∉
      quality_issues_of (str "works on xpdfy stuff")
        (find_file_types (str "a .pdf form")) := by decide

/-- C6 (amended): for every description and document content, the
file-types quality issue is reported iff file types were detected and none
of them occurs case-insensitively as a substring of the description; its
message lists exactly the detected types (all of which are then
missing). -/
theorem claim6_amended (desc content : Str) :
    ftIssueMsg (find_file_types content) ∈
        quality_issues_of desc (find_file_types content) ↔
      find_file_types content ≠ [] ∧
        ¬∃ ext ∈ find_file_types content, SubSeg ext (lowerS desc) := by
  have main : ∀ ftl : List Str,
      (ftIssueMsg ftl ∈ quality_issues_of desc ftl ↔
        ftl ≠ [] ∧ ¬∃ ext ∈ ftl, SubSeg ext (lowerS desc)) := by
    intro ftl
    have hne1 : ftIssueMsg ftl ≠ str "Description too short (< 50 chars)" :=
      ne_of_head? (by rw [ftIssueMsg_head]; decide)
    have hne2 : ftIssueMsg ftl ≠
        str "Description too long (" ++ numStr desc.length ++ str " > 1024 chars)" := by
      refine ne_of_head? ?_
      rw [ftIssueMsg_head]
      have h2 : (str "Description too long (" ++ numStr desc.length ++
          str " > 1024 chars)").head? = some 'D' := rfl
      rw [h2]
      decide
    have hne3 : ftIssueMsg ftl ≠ str "Contains forbidden angle brackets" :=
      ne_of_head? (by rw [ftIssueMsg_head]; decide)
    have hne4 : ftIssueMsg ftl ≠ str "Missing trigger phrase (Use this skill when...)" :=
      ne_of_head? (by rw [ftIssueMsg_head]; decide)
    have hne5 : ftIssueMsg ftl ≠ str "No enumerated scenarios (1), (2), (3)..." :=
      ne_of_head? (by rw [ftIssueMsg_head]; decide)
    unfold quality_issues_of
    simp only [List.mem_append, mem_ite_list, List.mem_singleton]
    constructor
    · rintro (((((⟨-, h⟩ | ⟨-, h⟩) | ⟨-, h⟩) | ⟨-, h⟩) | ⟨-, h⟩) | ⟨hc, hc2, -⟩)
      · exact absurd h hne1
      · exact absurd h hne2
      · exact absurd h hne3
      · exact absurd h hne4
      · exact absurd h hne5
      · refine ⟨hc2, ?_⟩
        rcases Bool.or_eq_true .. |>.mp hc with he | hn
        · exact absurd (List.isEmpty_iff.mp he) hc2
        · rw [Bool.not_eq_true'] at hn
          intro ⟨ext, hext, hsub⟩
          have := List.any_eq_false.mp hn ext hext
          exact this (hasSub_of_subSeg hsub)
    · rintro ⟨hne, hnone⟩
      refine Or.inr ⟨?_, hne, trivial⟩
      refine Bool.or_eq_true .. |>.mpr (Or.inr ?_)
      rw [Bool.not_eq_true']
      refine List.any_eq_false.mpr ?_
      intro ext hext
      rw [Bool.not_eq_true]
      cases hcase : hasSub ext (lowerS desc)
      · rfl
      · exact absurd ⟨ext, hext, (hasSub_iff _ _).mp hcase⟩ hnone
  exact main _

/-- C6 (witness): the amended claim applied at a concrete description and
content, in the direction that reports the issue. -/
theorem claim6_witness :
    ftIssueMsg (find_file_types (str "see .pdf")) ∈
      quality_issues_of (str "short text") (find_file_types (str "see .pdf")) :=
  (claim6_amended (str "short text") (str "see .pdf")).mpr ⟨by decide, by decide⟩

/-! ## Claim C8 — the classifier -/

/-- C8: `classify_skill_type` is total and deterministic — it always
returns one of the four archetype tags, and it applies its rules in
first-match order: document-format file types give `file_processor`; else
a reference/documentation/api/schema keyword in the joined lowercased
headings gives `knowledge_reference`; else a workflow/step/process/pipeline
keyword gives `workflow_automation`; else `tool_integration`. -/
theorem claim8_classifier (a : AnalysisResult) :
    (classify_skill_type a ∈
      [str "file_processor", str "knowledge_reference", str "workflow_automation",
       str "tool_integration"]) ∧
    ((∃ e ∈ a.file_types, e ∈ docFormatList) →
      classify_skill_type a = str "file_processor") ∧
    (¬(∃ e ∈ a.file_types, e ∈ docFormatList) →
      (∃ kw ∈ krKeywords, SubSeg kw (joinSep (str " ") (a.headings.map lowerS))) →
      classify_skill_type a = str "knowledge_reference") ∧
    (¬(∃ e ∈ a.file_types, e ∈ docFormatList) →
      ¬(∃ kw ∈ krKeywords, SubSeg kw (joinSep (str " ") (a.headings.map lowerS))) →
      (∃ kw ∈ waKeywords, SubSeg kw (joinSep (str " ") (a.headings.map lowerS))) →
      classify_skill_type a = str "workflow_automation") ∧
    (¬(∃ e ∈ a.file_types, e ∈ docFormatList) →
      ¬(∃ kw ∈ krKeywords, SubSeg kw (joinSep (str " ") (a.headings.map lowerS))) →
      ¬(∃ kw ∈ waKeywords, SubSeg kw (joinSep (str " ") (a.headings.map lowerS))) →
      classify_skill_type a = str "tool_integration") := by
  have hc1 : (!a.file_types.isEmpty && a.file_types.any fun e => decide (e ∈ docFormatList)) = true ↔
      ∃ e ∈ a.file_types, e ∈ docFormatList := by
    constructor
    · intro h
      rcases (Bool.and_eq_true ..).mp h with ⟨-, h2⟩
      rcases List.any_eq_true.mp h2 with ⟨e, he, hd⟩
      exact ⟨e, he, of_decide_eq_true hd⟩
    · rintro ⟨e, he, hd⟩
      refine (Bool.and_eq_true ..).mpr
        ⟨?_, List.any_eq_true.mpr ⟨e, he, decide_eq_true hd⟩⟩
      cases hfe : a.file_types.isEmpty
      · rfl
      · simp [List.isEmpty_iff.mp hfe] at he
  have hc2 : (krKeywords.any fun kw =>
        hasSub kw (joinSep (str " ") (a.headings.map lowerS))) = true ↔
      ∃ kw ∈ krKeywords, SubSeg kw (joinSep (str " ") (a.headings.map lowerS)) := by
    simp only [List.any_eq_true, hasSub_iff]
  have hc3 : (waKeywords.any fun kw =>
        hasSub kw (joinSep (str " ") (a.headings.map lowerS))) = true ↔
      ∃ kw ∈ waKeywords, SubSeg kw (joinSep (str " ") (a.headings.map lowerS)) := by
    simp only [List.any_eq_true, hasSub_iff]
  simp only [classify_skill_type]
  by_cases h1 : (!a.file_types.isEmpty && a.file_types.any fun e => decide (e ∈ docFormatList)) = true
  · have h1p := hc1.mp h1
    rw [if_pos h1]
    exact ⟨by simp, fun _ => rfl, fun hn _ => absurd h1p hn, fun hn _ _ => absurd h1p hn,
      fun hn _ _ => absurd h1p hn⟩
  · have h1p : ¬∃ e ∈ a.file_types, e ∈ docFormatList := fun hp => h1 (hc1.mpr hp)
    rw [if_neg h1]
    by_cases h2 : (krKeywords.any fun kw =>
        hasSub kw (joinSep (str " ") (a.headings.map lowerS))) = true
    · have h2p := hc2.mp h2
      rw [if_pos h2]
      exact ⟨by simp, fun hp => absurd hp h1p, fun _ _ => rfl,
        fun _ hn _ => absurd h2p hn, fun _ hn _ => absurd h2p hn⟩
    · have h2p : ¬∃ kw ∈ krKeywords, SubSeg kw (joinSep (str " ") (a.headings.map lowerS)) :=
        fun hp => h2 (hc2.mpr hp)
      rw [if_neg h2]
      by_cases h3 : (waKeywords.any fun kw =>
          hasSub kw (joinSep (str " ") (a.headings.map lowerS))) = true
      · have h3p := hc3.mp h3
        rw [if_pos h3]
        exact ⟨by simp, fun hp => absurd hp h1p, fun _ hp => absurd hp h2p,
          fun _ _ _ => rfl, fun _ _ hn => absurd h3p hn⟩
      · have h3p : ¬∃ kw ∈ waKeywords, SubSeg kw (joinSep (str " ") (a.headings.map lowerS)) :=
          fun hp => h3 (hc3.mpr hp)
        rw [if_neg h3]
        exact ⟨by simp, fun hp => absurd hp h1p, fun _ hp => absurd hp h2p,
          fun _ _ hp => absurd hp h3p, fun _ _ _ => rfl⟩

/-- C8 (witness): the classifier first-match clauses applied at a concrete
analysis whose headings contain a reference keyword but no document-format
file type. -/
theorem claim8_witness :
    classify_skill_type ⟨str "s", [], [], [], [str "API Reference"], [], []⟩ =
      str "knowledge_reference" :=
  (claim8_classifier ⟨str "s", [], [], [], [str "API Reference"], [], []⟩).2.2.1
    (by decide) (by decide)

/-! ## Claim C7 — action-verb ranking -/

theorem dkf_nodup (l : List Str) : (dkf l).Nodup := by
  induction l with
  | nil => simp [dkf]
  | cons x xs ih =>
    rw [dkf]
    refine List.nodup_cons.mpr ⟨?_, List.Nodup.filter _ ih⟩
    intro hmem
    have := List.of_mem_filter hmem
    simp at this

theorem dkf_mem (l : List Str) (w : Str) : w ∈ dkf l ↔ w ∈ l := by
  induction l with
  | nil => simp [dkf]
  | cons x xs ih =>
    rw [dkf]
    simp only [List.mem_cons, List.mem_filter, ih, decide_eq_true_eq]
    constructor
    · rintro (rfl | ⟨h1, h2⟩)
      · exact Or.inl rfl
      · exact Or.inr h1
    · rintro (rfl | h)
      · exact Or.inl rfl
      · by_cases hx : w = x
        · exact Or.inl hx
        · exact Or.inr ⟨h, hx⟩

theorem idxOfStr_inj {l : List Str} {x y : Str} (hx : x ∈ l) (hy : y ∈ l)
    (h : idxOfStr x l = idxOfStr y l) : x = y := by
  induction l with
  | nil => cases hx
  | cons a t ih =>
    by_cases hax : a = x <;> by_cases hay : a = y
    · rw [← hax, hay]
    · rw [idxOfStr, idxOfStr, if_pos hax, if_neg hay] at h
      omega
    · rw [idxOfStr, idxOfStr, if_neg hax, if_pos hay] at h
      omega
    · rw [idxOfStr, idxOfStr, if_neg hax, if_neg hay] at h
      have hx2 : x ∈ t := by
        rcases List.mem_cons.mp hx with rfl | h2
        · exact absurd rfl hax
        · exact h2
      have hy2 : y ∈ t := by
        rcases List.mem_cons.mp hy with rfl | h2
        · exact absurd rfl hay
        · exact h2
      exact ih hx2 hy2 (by omega)

theorem mcR_total (found : List Str) : ∀ a b, mcR found a b ∨ mcR found b a := by
  intro a b
  unfold mcR
  rcases lt_trichotomy (found.count a) (found.count b) with h | h | h
  · exact Or.inr (Or.inl h)
  · rcases Nat.le_total (idxOfStr a found) (idxOfStr b found) with h2 | h2
    · exact Or.inl (Or.inr ⟨h, h2⟩)
    · exact Or.inr (Or.inr ⟨h.symm, h2⟩)
  · exact Or.inl (Or.inl h)

theorem mcR_trans (found : List Str) :
    ∀ a b c, mcR found a b → mcR found b c → mcR found a c := by
  intro a b c hab hbc
  unfold mcR at *
  rcases hab with h1 | ⟨h1, h1i⟩ <;> rcases hbc with h2 | ⟨h2, h2i⟩
  · exact Or.inl (by omega)
  · exact Or.inl (by omega)
  · exact Or.inl (by omega)
  · exact Or.inr ⟨by omega, le_trans h1i h2i⟩

/-- The `most_common(10)` model: bound, distinctness, membership, the
count-descending/first-occurrence ordering, and completeness when at most
ten distinct verbs occur. -/
theorem most_common_spec (found : List Str) :
    ((List.insertionSort (mcR found) (dkf found)).take 10).length ≤ 10 ∧
    ((List.insertionSort (mcR found) (dkf found)).take 10).Nodup ∧
    (∀ w ∈ (List.insertionSort (mcR found) (dkf found)).take 10, w ∈ found) ∧
    List.Pairwise (fun x y => found.count y ≤ found.count x ∧
        (found.count x = found.count y →
          idxOfStr x found < idxOfStr y found))
      ((List.insertionSort (mcR found) (dkf found)).take 10) ∧
    ((dkf found).length ≤ 10 →
      ∀ w ∈ found, w ∈ (List.insertionSort (mcR found) (dkf found)).take 10) := by
  haveI htot : IsTotal Str (mcR found) := ⟨mcR_total found⟩
  haveI htr : IsTrans Str (mcR found) := ⟨mcR_trans found⟩
  have hperm := List.perm_insertionSort (mcR found) (dkf found)
  have hnodup : (List.insertionSort (mcR found) (dkf found)).Nodup :=
    hperm.nodup_iff.mpr (dkf_nodup found)
  have hsorted := List.sorted_insertionSort (mcR found) (dkf found)
  have hmem : ∀ w ∈ (List.insertionSort (mcR found) (dkf found)).take 10, w ∈ found := by
    intro w hw
    exact (dkf_mem found w).mp (hperm.subset (List.take_subset _ _ hw))
  refine ⟨List.length_take_le _ _, List.Sublist.nodup (List.take_sublist _ _) hnodup,
    hmem, ?_, ?_⟩
  · have hp : List.Pairwise (mcR found)
        ((List.insertionSort (mcR found) (dkf found)).take 10) :=
      List.Pairwise.sublist (List.take_sublist _ _) hsorted
    have hne : List.Pairwise (fun x y : Str => x ≠ y)
        ((List.insertionSort (mcR found) (dkf found)).take 10) :=
      List.Sublist.nodup (List.take_sublist _ _) hnodup
    refine List.Pairwise.imp_of_mem ?_ (hp.and hne)
    intro a b ha hb hab
    rcases hab with ⟨hr, hneq⟩
    have hain := hmem a ha
    have hbin := hmem b hb
    rcases hr with hlt | ⟨heq, hle⟩
    · exact ⟨le_of_lt hlt, fun h2 => by omega⟩
    · refine ⟨le_of_eq heq.symm, fun _ => ?_⟩
      refine lt_of_le_of_ne hle fun hidx => ?_
      exact hneq (idxOfStr_inj hain hbin hidx)
  · intro h10 w hw
    have hlen := hperm.length_eq
    rw [List.take_of_length_le (by omega)]
    exact hperm.mem_iff.mpr ((dkf_mem found w).mpr hw)

/-- C7: `find_action_verbs` keeps exactly the lowercase alphabetic word
tokens that lie in the fixed action-verb vocabulary, returns at most 10
pairwise-distinct verbs, orders them by descending frequency in the token
stream with frequency ties broken by the first-occurrence position
(deterministically), and omits no occurring verb when at most ten distinct
verbs occur. -/
theorem claim7_action_verbs (content : Str) :
    (find_action_verbs content).length ≤ 10 ∧
    (find_action_verbs content).Nodup ∧
    (∀ w ∈ find_action_verbs content,
      w ∈ ACTION_VERBS ∧ w ∈ tokenize (lowerS content) ∧ w ∈ foundVerbs content) ∧
    List.Pairwise (fun x y =>
      (foundVerbs content).count y ≤ (foundVerbs content).count x ∧
        ((foundVerbs content).count x = (foundVerbs content).count y →
          idxOfStr x (foundVerbs content) < idxOfStr y (foundVerbs content)))
      (find_action_verbs content) ∧
    ((dkf (foundVerbs content)).length ≤ 10 →
      ∀ w ∈ foundVerbs content, w ∈ find_action_verbs content) := by
  obtain ⟨h1, h2, h3, h4, h5⟩ := most_common_spec (foundVerbs content)
  unfold find_action_verbs
  refine ⟨h1, h2, ?_, h4, h5⟩
  intro w hw
  have hf := h3 w hw
  have hsplit : w ∈ tokenize (lowerS content) ∧ w ∈ ACTION_VERBS := by
    simpa [foundVerbs, List.mem_filter] using hf
  exact ⟨hsplit.2, hsplit.1, hf⟩

/-- C7 (witness): the theorem applied at a concrete body text. -/
theorem claim7_witness :
    (find_action_verbs (str "fill and extract, fill")).length ≤ 10 ∧
    (find_action_verbs (str "fill and extract, fill")).Nodup ∧
    (∀ w ∈ find_action_verbs (str "fill and extract, fill"),
      w ∈ ACTION_VERBS ∧ w ∈ tokenize (lowerS (str "fill and extract, fill")) ∧
        w ∈ foundVerbs (str "fill and extract, fill")) ∧
    List.Pairwise (fun x y =>
      (foundVerbs (str "fill and extract, fill")).count y ≤
          (foundVerbs (str "fill and extract, fill")).count x ∧
        ((foundVerbs (str "fill and extract, fill")).count x =
            (foundVerbs (str "fill and extract, fill")).count y →
          idxOfStr x (foundVerbs (str "fill and extract, fill")) <
            idxOfStr y (foundVerbs (str "fill and extract, fill"))))
      (find_action_verbs (str "fill and extract, fill")) ∧
    ((dkf (foundVerbs (str "fill and extract, fill"))).length ≤ 10 →
      ∀ w ∈ foundVerbs (str "fill and extract, fill"),
        w ∈ find_action_verbs (str "fill and extract, fill")) :=
  claim7_action_verbs (str "fill and extract, fill")

/-! ## Survival of a marked segment through post-processing

The proofs below track an occurrence `u ++ s ++ v` of a segment `s`
through the post-processing pipeline: the two regex removals only touch
text from an opening parenthesis onwards, whitespace collapsing leaves a
whitespace-free segment intact, and the strips only gnaw at the ends. -/

theorem stripExamples_cons_no_paren {c : Char} (hc : c ≠ '(') (s : Str) :
    stripExamples (c :: s) = c :: stripExamples s := by
  have hpre : exLit.isPrefixOf (c :: s) = false := by
    cases hh : exLit.isPrefixOf (c :: s)
    · rfl
    · exfalso
      rcases (isPrefixOf_iff_ex _ _).mp hh with ⟨v, hv⟩
      have hv2 : c :: s = '(' :: (str "examples include" ++ v) := hv
      injection hv2 with h1 _
      exact hc h1
  show stripExamplesF (s.length + 1) (c :: s) = c :: stripExamples s
  simp only [stripExamplesF, hpre, Bool.false_eq_true, if_false]
  rfl

theorem stripExamples_append_no_paren {u v : Str} (hu : '(' ∉ u) :
    stripExamples (u ++ v) = u ++ stripExamples v := by
  induction u with
  | nil => simp
  | cons c t ih =>
    have hc : c ≠ '(' := fun h => hu (h ▸ List.mem_cons_self c t)
    rw [List.cons_append, stripExamples_cons_no_paren hc,
      ih fun h => hu (List.mem_cons_of_mem c h)]
    rfl

theorem scenMatchLen_nonparen {c : Char} (hc : c ≠ '(') (cs : Str) :
    scenMatchLen (c :: cs) = none := by
  unfold scenMatchLen
  split
  · next rest heq =>
    injection heq with h1 _
    exact absurd h1 hc
  · rfl

theorem removeScens_cons_no_paren {c : Char} (hc : c ≠ '(') (count : Nat) (s : Str) :
    removeScens count (c :: s) = c :: removeScens count s := by
  cases count with
  | zero =>
    show removeScensF (s.length + 1) 0 (c :: s) = c :: removeScensF s.length 0 s
    cases hs : s.length <;> simp [removeScensF]
  | succ k =>
    show removeScensF (s.length + 1) (k + 1) (c :: s) =
      c :: removeScensF s.length (k + 1) s
    simp only [removeScensF, scenMatchLen_nonparen hc]

theorem removeScens_append_no_paren {u v : Str} (hu : '(' ∉ u) (count : Nat) :
    removeScens count (u ++ v) = u ++ removeScens count v := by
  induction u with
  | nil => simp
  | cons c t ih =>
    have hc : c ≠ '(' := fun h => hu (h ▸ List.mem_cons_self c t)
    rw [List.cons_append, removeScens_cons_no_paren hc,
      ih fun h => hu (List.mem_cons_of_mem c h)]
    rfl

theorem collapseAux_nows {s : Str} (hne : s ≠ [])
    (hs : ∀ c ∈ s, pyIsSpace c = false) (b : Bool) (v : Str) :
    collapseAux b (s ++ v) = s ++ collapseAux false v := by
  induction s generalizing b with
  | nil => exact absurd rfl hne
  | cons c t ih =>
    have hc := hs c (List.mem_cons_self c t)
    simp only [List.cons_append, collapseAux, hc, Bool.false_eq_true, if_false,
      List.append_eq]
    by_cases ht : t = []
    · subst ht; simp
    · rw [ih ht (fun d hd => hs d (List.mem_cons_of_mem c hd)) false]

theorem collapseAux_append_exists {s : Str} (hne : s ≠ [])
    (hs : ∀ c ∈ s, pyIsSpace c = false) :
    ∀ (u : Str) (b : Bool) (v : Str), ∃ u',
      collapseAux b (u ++ s ++ v) = u' ++ s ++ collapseAux false v ∧
        ∀ x ∈ u', x ∈ u ∨ x = ' ' := by
  intro u
  induction u with
  | nil =>
    intro b v
    refine ⟨[], ?_, by simp⟩
    simpa using collapseAux_nows hne hs b v
  | cons c t ih =>
    intro b v
    by_cases hc : pyIsSpace c = true
    · cases b with
      | true =>
        rcases ih true v with ⟨u', hu', hsub⟩
        refine ⟨u', ?_, fun x hx => ?_⟩
        · simp only [List.cons_append, collapseAux, hc, if_true, List.append_eq]
          exact hu'
        · rcases hsub x hx with h | h
          · exact Or.inl (List.mem_cons_of_mem c h)
          · exact Or.inr h
      | false =>
        rcases ih true v with ⟨u', hu', hsub⟩
        refine ⟨' ' :: u', ?_, fun x hx => ?_⟩
        · simp only [List.cons_append, collapseAux, hc, if_true, List.append_eq,
            Bool.false_eq_true, if_false]
          rw [hu']
        · rcases List.mem_cons.mp hx with rfl | hx2
          · exact Or.inr rfl
          · rcases hsub x hx2 with h | h
            · exact Or.inl (List.mem_cons_of_mem c h)
            · exact Or.inr h
    · rcases ih false v with ⟨u', hu', hsub⟩
      refine ⟨c :: u', ?_, fun x hx => ?_⟩
      · simp only [List.cons_append, collapseAux, hc, Bool.false_eq_true, if_false,
          List.append_eq]
        rw [hu']
      · rcases List.mem_cons.mp hx with heq | hx2
        · rw [heq]
          exact Or.inl (List.mem_cons_self c t)
        · rcases hsub x hx2 with h | h
          · exact Or.inl (List.mem_cons_of_mem c h)
          · exact Or.inr h

theorem dropWhile_to_marker {p : Char → Bool} {c : Char} (hc : p c = false) (rest : Str) :
    ∀ u : Str, ∃ u', List.dropWhile p (u ++ c :: rest) = u' ++ c :: rest ∧
      ∀ x ∈ u', x ∈ u := by
  intro u
  induction u with
  | nil => exact ⟨[], by simp [List.dropWhile_cons, hc], by simp⟩
  | cons d t ih =>
    by_cases hd : p d = true
    · rcases ih with ⟨u', hu', hsub⟩
      exact ⟨u', by simp [List.dropWhile_cons, hd, hu'],
        fun x hx => List.mem_cons_of_mem d (hsub x hx)⟩
    · exact ⟨d :: t, by simp [List.dropWhile_cons, hd], fun x hx => hx⟩

theorem rdropWhile_marker {p : Char → Bool} {z : Char} (hz : p z = false) (u v : Str) :
    rdropWhile p (u ++ z :: v) = u ++ z :: rdropWhile p v := by
  unfold rdropWhile
  have hrev : (u ++ z :: v).reverse = v.reverse ++ (z :: u.reverse) := by
    rw [List.reverse_append, List.reverse_cons, List.append_assoc]
    simp
  rw [hrev, List.dropWhile_append]
  split
  · next h =>
    rw [List.isEmpty_iff] at h
    rw [h]
    simp [List.dropWhile_cons, hz]
  · next h =>
    rw [List.reverse_append, List.reverse_cons]
    simp

theorem pyIsSpace_toNat {c : Char} (h : pyIsSpace c = true) :
    c.toNat = 32 ∨ c.toNat = 9 ∨ c.toNat = 10 ∨ c.toNat = 13 ∨
      c.toNat = 11 ∨ c.toNat = 12 := by
  simp only [pyIsSpace, Bool.or_eq_true, decide_eq_true_eq] at h
  rcases h with ((((h | h) | h) | h) | h) | h <;> subst h <;> simp [Char.toNat]

theorem nonspace_of_toNat {c : Char} (h1 : 33 ≤ c.toNat) : pyIsSpace c = false := by
  cases hc : pyIsSpace c
  · rfl
  · rcases pyIsSpace_toNat hc with h | h | h | h | h | h <;> omega

theorem char_ne_of_toNat {c d : Char} (h : c.toNat ≠ d.toNat) : c ≠ d :=
  fun he => h (char_eq_iff_toNat.mp he)

/-- A segment consisting of non-whitespace, non-parenthesis characters
whose last character is neither a comma nor a period survives the whole
post-processing pipeline. -/
theorem postprocess_subSeg {w : Str} {z : Char} (u v : Str)
    (hu : '(' ∉ u) (hw : '(' ∉ w) (hz : z ≠ '(')
    (hwns : ∀ c ∈ w, pyIsSpace c = false) (hzns : pyIsSpace z = false)
    (hzc : z ≠ ',') (hzd : z ≠ '.') :
    SubSeg (w ++ [z]) (postprocess (u ++ (w ++ [z]) ++ v)) := by
  have hztail : ([',', '.'].contains z) = false := by
    have hb1 : (z == ',') = false := beq_eq_false_iff_ne.mpr hzc
    have hb2 : (z == '.') = false := beq_eq_false_iff_ne.mpr hzd
    simp [List.contains, List.elem, hb1, hb2]
  have hsne : w ++ [z] ≠ [] := by simp
  have hsnp : '(' ∉ w ++ [z] := by
    intro hmem
    rcases List.mem_append.mp hmem with h | h
    · exact hw h
    · simp only [List.mem_singleton] at h
      exact hz h.symm
  have hsns : ∀ c ∈ w ++ [z], pyIsSpace c = false := by
    intro c hc
    rcases List.mem_append.mp hc with h | h
    · exact hwns c h
    · simp only [List.mem_singleton] at h
      rw [h]
      exact hzns
  obtain ⟨c₀, rest₀, hhead, hc₀⟩ :
      ∃ c₀ rest₀, w ++ [z] = c₀ :: rest₀ ∧ pyIsSpace c₀ = false := by
    cases w with
    | nil => exact ⟨z, [], rfl, hzns⟩
    | cons a t => exact ⟨a, t ++ [z], rfl, hwns a (List.mem_cons_self a t)⟩
  let INV : Str → Prop := fun t => ∃ u' v', t = u' ++ (w ++ [z]) ++ v' ∧ '(' ∉ u'
  have hstep_strip : ∀ t, INV t → INV (stripExamples t) := by
    rintro t ⟨u', v', rfl, hu'⟩
    have hnp : '(' ∉ u' ++ (w ++ [z]) := by
      intro hmem
      rcases List.mem_append.mp hmem with h | h
      exacts [hu' h, hsnp h]
    exact ⟨u', stripExamples v', stripExamples_append_no_paren hnp, hu'⟩
  have hstep_rem : ∀ t count, INV t → INV (removeScens count t) := by
    rintro t count ⟨u', v', rfl, hu'⟩
    have hnp : '(' ∉ u' ++ (w ++ [z]) := by
      intro hmem
      rcases List.mem_append.mp hmem with h | h
      exacts [hu' h, hsnp h]
    exact ⟨u', removeScens count v', removeScens_append_no_paren hnp count, hu'⟩
  have hstep_col : ∀ t b, INV t → INV (collapseAux b t) := by
    rintro t b ⟨u', v', rfl, hu'⟩
    rcases collapseAux_append_exists hsne hsns u' b v' with ⟨u₂, heq, hsub⟩
    refine ⟨u₂, collapseAux false v', heq, fun hmem => ?_⟩
    rcases hsub '(' hmem with h | h
    · exact hu' h
    · exact absurd h (by decide)
  have hstep_drop : ∀ t, INV t → INV (t.dropWhile pyIsSpace) := by
    rintro t ⟨u', v', rfl, hu'⟩
    rcases dropWhile_to_marker hc₀ (rest₀ ++ v') u' with ⟨u₂, heq, hsub⟩
    refine ⟨u₂, v', ?_, fun hmem => hu' (hsub '(' hmem)⟩
    calc (u' ++ (w ++ [z]) ++ v').dropWhile pyIsSpace
        = (u' ++ c₀ :: (rest₀ ++ v')).dropWhile pyIsSpace := by
          rw [hhead, List.append_assoc, List.cons_append]
      _ = u₂ ++ c₀ :: (rest₀ ++ v') := heq
      _ = u₂ ++ (w ++ [z]) ++ v' := by
          rw [hhead, List.append_assoc, List.cons_append]
  have hstep_rdrop : ∀ (p : Char → Bool), p z = false →
      ∀ t, INV t → INV (rdropWhile p t) := by
    rintro p hp t ⟨u', v', rfl, hu'⟩
    refine ⟨u', rdropWhile p v', ?_, hu'⟩
    calc rdropWhile p (u' ++ (w ++ [z]) ++ v')
        = rdropWhile p ((u' ++ w) ++ z :: v') := by simp [List.append_assoc]
      _ = (u' ++ w) ++ z :: rdropWhile p v' := rdropWhile_marker hp _ _
      _ = u' ++ (w ++ [z]) ++ rdropWhile p v' := by simp [List.append_assoc]
  have hsteps : ∀ t, INV t → INV (postprocess t) := by
    intro t ht
    have h1 : INV (if MAX_DESCRIPTION_LENGTH < t.length
        then pyStrip (stripExamples t) else t) := by
      split
      · exact hstep_rdrop _ hzns _ (hstep_drop _ (hstep_strip _ ht))
      · exact ht
    simp only [postprocess]
    refine hstep_rdrop _ hztail _ (hstep_rdrop _ hzns _ (hstep_drop _ (hstep_col _ false ?_)))
    revert h1
    generalize (if MAX_DESCRIPTION_LENGTH < t.length then pyStrip (stripExamples t) else t) = t1
    intro h1
    split
    · exact hstep_rem _ 2 h1
    · exact h1
  rcases hsteps _ ⟨u, v, rfl, hu⟩ with ⟨u', v', heq, -⟩
  exact ⟨u', v', heq⟩

/-! ## Vocabulary facts and structural decompositions for C4 -/

theorem vocabLetters : ∀ e ∈ allAltsList, e ≠ [] ∧ ∀ c ∈ e, isLowerAZ c = true := by
  decide

theorem verbLetters : ∀ w ∈ ACTION_VERBS, w ≠ [] ∧ ∀ c ∈ w, isLowerAZ c = true := by
  decide

theorem lower_letter_props {c : Char} (h : isLowerAZ c = true) :
    pyIsSpace c = false ∧ c ≠ '(' ∧ c ≠ ',' ∧ c ≠ '.' ∧ lowerC c = c := by
  have hb := isLowerAZ_toNat h
  have h40 : ('(' : Char).toNat = 40 := rfl
  have h44 : (',' : Char).toNat = 44 := rfl
  have h46 : ('.' : Char).toNat = 46 := rfl
  refine ⟨nonspace_of_toNat (by omega), char_ne_of_toNat (by omega),
    char_ne_of_toNat (by omega), char_ne_of_toNat (by omega), ?_⟩
  have hup : isUpperAZ c = false := by
    cases hup : isUpperAZ c
    · rfl
    · have := isUpperAZ_toNat hup
      omega
  simp [lowerC, hup]

theorem upperC_of_lower {c : Char} (h : isLowerAZ c = true) :
    65 ≤ (upperC c).toNat ∧ (upperC c).toNat ≤ 90 := by
  have hb := isLowerAZ_toNat h
  unfold upperC
  rw [if_pos h, toNat_ofNat_valid _ (by omega)]
  omega

theorem upper_marker_props {z : Char} (h1 : 65 ≤ z.toNat) (h2 : z.toNat ≤ 122) :
    z ≠ '(' ∧ pyIsSpace z = false ∧ z ≠ ',' ∧ z ≠ '.' := by
  have h40 : ('(' : Char).toNat = 40 := rfl
  have h44 : (',' : Char).toNat = 44 := rfl
  have h46 : ('.' : Char).toNat = 46 := rfl
  exact ⟨char_ne_of_toNat (by omega), nonspace_of_toNat (by omega),
    char_ne_of_toNat (by omega), char_ne_of_toNat (by omega)⟩

theorem find_action_verbs_mem {content : Str} :
    ∀ w ∈ find_action_verbs content, w ∈ ACTION_VERBS := by
  intro w hw
  unfold find_action_verbs at hw
  have h1 := List.take_subset _ _ hw
  have h2 := (List.perm_insertionSort (mcR (foundVerbs content))
    (dkf (foundVerbs content))).subset h1
  have h3 := (dkf_mem _ _).mp h2
  have h4 : w ∈ tokenize (lowerS content) ∧ w ∈ ACTION_VERBS := by
    simpa [foundVerbs, List.mem_filter] using h3
  exact h4.2

theorem scanExtsF_subset {alts : List Str} {f : Nat} :
    ∀ {s : Str}, ∀ a ∈ scanExtsF alts f s, a ∈ alts := by
  induction f with
  | zero => intro s a ha; simp [scanExtsF] at ha
  | succ f ih =>
    intro s
    cases s with
    | nil => intro a ha; simp [scanExtsF] at ha
    | cons c cs =>
      intro a ha
      simp only [scanExtsF] at ha
      split at ha
      · split at ha
        · next b heq =>
          rcases List.mem_cons.mp ha with rfl | h2
          · exact List.mem_of_find?_eq_some (by simpa [tryAlts] using heq)
          · exact ih _ h2
        · exact ih _ ha
      · exact ih _ ha

theorem sortStr_mem {l : List Str} {e : Str} : e ∈ sortStr l ↔ e ∈ l :=
  (List.perm_insertionSort _ l).mem_iff

theorem find_file_types_subset (content : Str) :
    ∀ e ∈ find_file_types content, e ∈ allAltsList := by
  intro e he
  simp only [find_file_types] at he
  split at he
  · have h1 := (dkf_mem _ _).mp (sortStr_mem.mp he)
    have h2 := scanExtsF_subset _ h1
    exact List.mem_append.mpr (Or.inl h2)
  · split at he
    · have h1 := List.mem_of_mem_filter (sortStr_mem.mp he)
      exact scanExtsF_subset _ ((dkf_mem _ _).mp h1)
    · exact scanExtsF_subset _ ((dkf_mem _ _).mp (sortStr_mem.mp he))

theorem no_paren_append {a b : Str} (ha : '(' ∉ a) (hb : '(' ∉ b) : '(' ∉ a ++ b := by
  intro h
  rcases List.mem_append.mp h with h2 | h2
  exacts [ha h2, hb h2]

theorem no_paren_joinSep {sep : Str} (hsep : '(' ∉ sep) :
    ∀ {l : List Str}, (∀ x ∈ l, '(' ∉ x) → '(' ∉ joinSep sep l := by
  intro l
  induction l with
  | nil => intro _ h; cases h
  | cons x t ih =>
    intro hl
    cases t with
    | nil => simpa [joinSep] using hl x (by simp)
    | cons y u =>
      rw [joinSep]
      exact no_paren_append (no_paren_append (hl x (by simp)) hsep)
        (ih fun z hz => hl z (by simp [hz]))

theorem pyTitleAux_chars {s : Str} :
    ∀ {b : Bool}, ∀ x ∈ pyTitleAux b s, ∃ c ∈ s, x = lowerC c ∨ x = upperC c ∨ x = c := by
  induction s with
  | nil => intro b x hx; cases hx
  | cons a t ih =>
    intro b x hx
    simp only [pyTitleAux] at hx
    split at hx
    · split at hx
      · rcases List.mem_cons.mp hx with rfl | h2
        · exact ⟨a, List.mem_cons_self a t, Or.inl rfl⟩
        · rcases ih x h2 with ⟨c, hc, hor⟩
          exact ⟨c, List.mem_cons_of_mem a hc, hor⟩
      · rcases List.mem_cons.mp hx with rfl | h2
        · exact ⟨a, List.mem_cons_self a t, Or.inr (Or.inl rfl)⟩
        · rcases ih x h2 with ⟨c, hc, hor⟩
          exact ⟨c, List.mem_cons_of_mem a hc, hor⟩
    · rcases List.mem_cons.mp hx with heq | h2
      · exact ⟨a, List.mem_cons_self a t, Or.inr (Or.inr heq)⟩
      · rcases ih x h2 with ⟨c, hc, hor⟩
        exact ⟨c, List.mem_cons_of_mem a hc, hor⟩

theorem no_paren_pyTitle {s : Str} (hs : '(' ∉ s) : '(' ∉ pyTitle s := by
  intro hmem
  rcases pyTitleAux_chars '(' hmem with ⟨c, hc, hor⟩
  have h40 : ('(' : Char).toNat = 40 := rfl
  rcases hor with h | h | h
  · rcases lowerC_eq_or c with he | hr
    · rw [he] at h
      exact hs (h ▸ hc)
    · rw [← h, h40] at hr
      omega
  · rcases upperC_eq_or c with he | hr
    · rw [he] at h
      exact hs (h ▸ hc)
    · rw [← h, h40] at hr
      omega
  · exact hs (h ▸ hc)

theorem no_paren_headD {l : List Str} (hl : ∀ x ∈ l, '(' ∉ x) : '(' ∉ l.headD [] := by
  cases l with
  | nil => intro h; cases h
  | cons a t => exact hl a (by simp [List.headD])

theorem no_paren_getLastD {l : List Str} (hl : ∀ x ∈ l, '(' ∉ x) : '(' ∉ l.getLastD [] := by
  cases l with
  | nil => intro h; cases h
  | cons a t =>
    rw [List.getLastD_eq_getLast?, List.getLast?_eq_getLast _ (by simp)]
    exact hl _ (List.getLast_mem _)

theorem no_paren_lastJoin {l : List Str} (hl : ∀ x ∈ l, '(' ∉ x) : '(' ∉ lastJoin l := by
  unfold lastJoin
  refine no_paren_append (no_paren_append ?_ (by decide)) (no_paren_getLastD hl)
  exact no_paren_joinSep (by decide) fun x hx => hl x (List.dropLast_subset _ hx)

theorem joinSep_cons (sep x : Str) (l : List Str) : ∃ t, joinSep sep (x :: l) = x ++ t := by
  cases l with
  | nil => exact ⟨[], by simp [joinSep]⟩
  | cons y u => exact ⟨sep ++ joinSep sep (y :: u), by rw [joinSep]; simp [List.append_assoc]⟩

theorem pyTitle_cons_alpha {c : Char} (hc : isAlphaAZ c = true) (t : Str) :
    pyTitle (c :: t) = upperC c :: pyTitleAux true t := by
  simp [pyTitle, pyTitleAux, hc]

theorem verb_phrase_no_paren (l : List Str) (hl : ∀ w ∈ l, '(' ∉ w) :
    '(' ∉ (if l ≠ [] then
      pyTitle (if 1 < l.length then lastJoin l else l.headD [])
    else str "Processing and manipulation") := by
  split
  · apply no_paren_pyTitle
    split
    · exact no_paren_lastJoin hl
    · exact no_paren_headD hl
  · decide

theorem no_paren_of_verb {w : Str} (hw : w ∈ ACTION_VERBS) : '(' ∉ w := by
  intro hmem
  have hc := (verbLetters w hw).2 '(' hmem
  have := isLowerAZ_toNat hc
  have h40 : ('(' : Char).toNat = 40 := rfl
  omega

theorem assembled_decomp (a : AnalysisResult) :
    ∃ R, assembled_description a = generate_capability_phrase a ++ R := by
  simp only [assembled_description]
  split
  · exact ⟨str ". Use this skill when " ++ generate_trigger_context a ++ str " for: " ++
      generate_scenarios a ++ str ", " ++ generate_catchall a,
      by simp [List.append_assoc]⟩
  · split
    · exact ⟨str ". Use when users ask about " ++ generate_trigger_context a ++
        str ". Provides authoritative guidance for " ++ generate_examples a ++ str ".",
        by simp [List.append_assoc]⟩
    · split
      · exact ⟨str ". Use this skill when " ++ generate_trigger_context a ++ str " for: " ++
          generate_scenarios a ++ str ". (examples include " ++ generate_examples a ++ str ")",
          by simp [List.append_assoc]⟩
      · exact ⟨str ". Use this skill when " ++ generate_trigger_context a ++ str " for: " ++
          generate_scenarios a ++ str ", " ++ generate_catchall a,
          by simp [List.append_assoc]⟩

/-- The capability phrase starts with an uppercase letter whenever the
action verbs come from the vocabulary. -/
theorem capability_head (a : AnalysisResult)
    (hverbs : ∀ w ∈ a.action_verbs, w ∈ ACTION_VERBS) :
    ∃ z R, generate_capability_phrase a = z :: R ∧ 65 ≤ z.toNat ∧ z.toNat ≤ 90 := by
  simp only [generate_capability_phrase]
  have hv4 : ∀ w ∈ a.action_verbs.take 4, w ∈ ACTION_VERBS :=
    fun w hw => hverbs w (List.take_subset _ _ hw)
  obtain ⟨z, R₀, hvp, hz1, hz2⟩ : ∃ z R₀,
      (if a.action_verbs.take 4 ≠ [] then
        pyTitle (if 1 < (a.action_verbs.take 4).length then lastJoin (a.action_verbs.take 4)
          else (a.action_verbs.take 4).headD [])
      else str "Processing and manipulation") = z :: R₀ ∧
      65 ≤ z.toNat ∧ z.toNat ≤ 90 := by
    split
    · next hne =>
      obtain ⟨v₀, vs, hv⟩ := List.exists_cons_of_ne_nil hne
      obtain ⟨hne₀, hlet⟩ := verbLetters v₀ (hv4 v₀ (hv ▸ List.mem_cons_self v₀ vs))
      obtain ⟨c, v₀', hv0⟩ := List.exists_cons_of_ne_nil hne₀
      have hc : isLowerAZ c = true := hlet c (hv0 ▸ List.mem_cons_self c v₀')
      have hca : isAlphaAZ c = true := by simp [isAlphaAZ, hc]
      have hbounds := upperC_of_lower hc
      obtain ⟨X, hX⟩ : ∃ X,
          (if 1 < (a.action_verbs.take 4).length then lastJoin (a.action_verbs.take 4)
            else (a.action_verbs.take 4).headD []) = v₀ ++ X := by
        split
        · next hlen =>
          have hvs : vs ≠ [] := by
            rw [hv] at hlen
            intro h
            rw [h] at hlen
            simp at hlen
          rw [hv]
          unfold lastJoin
          have hdl : (v₀ :: vs).dropLast = v₀ :: vs.dropLast := by
            cases vs with
            | nil => exact absurd rfl hvs
            | cons y u => rfl
          rw [hdl]
          obtain ⟨T, hT⟩ := joinSep_cons (str ", ") v₀ vs.dropLast
          rw [hT]
          exact ⟨T ++ (str ", and " ++ (v₀ :: vs).getLastD []), by simp [List.append_assoc]⟩
        · rw [hv]
          exact ⟨[], by simp [List.headD]⟩
      rw [hX, hv0, List.cons_append, pyTitle_cons_alpha hca]
      exact ⟨upperC c, _, rfl, hbounds.1, hbounds.2⟩
    · exact ⟨'P', _, rfl, by decide, by decide⟩
  obtain ⟨FP, hFP⟩ : ∃ FP, (if a.file_types ≠ [] then
      str "for " ++ joinSep (str ", ") (List.map (fun e => '.' :: e)
        (List.take 3 a.file_types)) ++ str " files"
    else str "for " ++ readable a.name) = FP := ⟨_, rfl⟩
  refine ⟨z, (R₀ ++ str " ") ++ FP, ?_, hz1, hz2⟩
  rw [hvp, hFP]
  simp [List.cons_append, List.append_assoc]

/-- With a non-empty file-type list, the capability phrase contains the
dotted first extension, preceded only by parenthesis-free text. -/
theorem capability_dot_decomp (a : AnalysisResult) {e₀ : Str} {ft' : List Str}
    (hft : a.file_types = e₀ :: ft')
    (hverbs : ∀ w ∈ a.action_verbs, w ∈ ACTION_VERBS) :
    ∃ U V, generate_capability_phrase a = U ++ ('.' :: e₀) ++ V ∧ '(' ∉ U := by
  simp only [generate_capability_phrase, hft]
  have hv4 : ∀ w ∈ a.action_verbs.take 4, '(' ∉ w :=
    fun w hw => no_paren_of_verb (hverbs w (List.take_subset _ _ hw))
  obtain ⟨vp, hvpe⟩ : ∃ vp,
      (if a.action_verbs.take 4 ≠ [] then
        pyTitle (if 1 < (a.action_verbs.take 4).length then lastJoin (a.action_verbs.take 4)
          else (a.action_verbs.take 4).headD [])
      else str "Processing and manipulation") = vp := ⟨_, rfl⟩
  have hvp : '(' ∉ vp := hvpe ▸ verb_phrase_no_paren _ hv4
  rw [hvpe, if_pos (by simp : (e₀ :: ft' : List Str) ≠ []), List.take_succ_cons,
    List.map_cons]
  obtain ⟨T, hT⟩ := joinSep_cons (str ", ") ('.' :: e₀) ((ft'.take 2).map (fun e => '.' :: e))
  rw [hT]
  refine ⟨vp ++ str " " ++ str "for ", T ++ str " files", ?_, ?_⟩
  · simp [List.append_assoc]
  · exact no_paren_append (no_paren_append hvp (by decide)) (by decide)

/-! ## Claim C4 and C9 counterexamples -/

/-- C4 (counterexample): the claim "with an empty header description the
quality-issues list has exactly 5 entries when file types were found" is
false: only four issues fire (too-short, missing-trigger, no-enumeration,
file-types), as on this concrete document. -/
theorem claim4_counterexample :
    (analyze_core (str "x") (str "") (str "use .pdf")).file_types ≠ [] ∧
    (analyze_core (str "x") (str "") (str "use .pdf")).quality_issues.length ≠ 5 := by
  decide

set_option maxHeartbeats 2000000 in
/-- C4 (amended): for every document (name and extracted frontmatter
description, plus raw content) whose header description is empty, the
quality-issues list has exactly 4 entries when file types were detected
and 3 otherwise; and the generated-vs-current selection picks the
generated description, because the empty current description scores 0
while the generated one scores at least its 15 file-type points (granted
outright when no file types exist, and earned through the surviving dotted
first extension otherwise). -/
theorem claim4_amended (name content : Str) :
    ((analyze_core name (str "") content).quality_issues.length =
      if (analyze_core name (str "") content).file_types = [] then 3 else 4) ∧
    choose_description (str "")
        (generate_optimized_description (analyze_core name (str "") content))
        (analyze_core name (str "") content) =
      generate_optimized_description (analyze_core name (str "") content) := by
  have hvocab := find_file_types_subset content
  have hqi : (analyze_core name (str "") content).quality_issues =
      quality_issues_of (str "") (find_file_types content) := rfl
  have hftd : (analyze_core name (str "") content).file_types =
      find_file_types content := rfl
  have hverbs : ∀ w ∈ (analyze_core name (str "") content).action_verbs,
      w ∈ ACTION_VERBS := fun w hw => find_action_verbs_mem w hw
  constructor
  · rw [hqi, hftd]
    have hany : ((find_file_types content).any fun ext =>
        hasSub ext (lowerS (str ""))) = false := by
      refine List.any_eq_false.mpr ?_
      intro e he
      obtain ⟨hne, -⟩ := vocabLetters e (hvocab e he)
      show ¬ (hasSub e (lowerS (str "")) = true)
      have hred : hasSub e (lowerS (str "")) = e.isEmpty := rfl
      rw [hred]
      simpa [List.isEmpty_iff] using hne
    unfold quality_issues_of
    rw [if_pos (by decide), if_neg (by decide), if_neg (by decide), if_pos (by decide),
      if_pos (by decide), if_pos (by rw [hany]; simp)]
    by_cases hft : find_file_types content = []
    · rw [if_neg (not_not_intro hft), if_pos hft]
      simp
    · rw [if_pos hft, if_neg hft]
      simp
  · have hScore : 0 < score_description
        (generate_optimized_description (analyze_core name (str "") content))
        (analyze_core name (str "") content) := by
      have hgenne : generate_optimized_description (analyze_core name (str "") content) ≠ [] ∧
          score_filetypes_pts
            (generate_optimized_description (analyze_core name (str "") content))
            (analyze_core name (str "") content).file_types = 15 := by
        by_cases hft : find_file_types content = []
        · obtain ⟨z, R, hcap, hz1, hz2⟩ :=
            capability_head (analyze_core name (str "") content) hverbs
          obtain ⟨R2, hasm⟩ := assembled_decomp (analyze_core name (str "") content)
          have hform : assembled_description (analyze_core name (str "") content) =
              [] ++ (([] : Str) ++ [z]) ++ (R ++ R2) := by
            rw [hasm, hcap]
            simp
          obtain ⟨hz3, hz4, hz5, hz6⟩ := upper_marker_props hz1 (by omega)
          have hsurv : SubSeg (([] : Str) ++ [z])
              (postprocess ([] ++ (([] : Str) ++ [z]) ++ (R ++ R2))) :=
            postprocess_subSeg [] (R ++ R2) (by simp) (by simp) hz3 (by simp) hz4 hz5 hz6
          rw [← hform] at hsurv
          have hgen : generate_optimized_description (analyze_core name (str "") content) =
              postprocess (assembled_description (analyze_core name (str "") content)) := rfl
          rcases hsurv with ⟨u', v', heq⟩
          constructor
          · rw [hgen, heq]
            simp
          · rw [hftd, hft]
            rfl
        · obtain ⟨e₀, ft', hfte⟩ := List.exists_cons_of_ne_nil hft
          have hfta : (analyze_core name (str "") content).file_types = e₀ :: ft' := by
            rw [hftd, hfte]
          obtain ⟨U, V, hcape, hU⟩ :=
            capability_dot_decomp (analyze_core name (str "") content) hfta hverbs
          obtain ⟨R2, hasm⟩ := assembled_decomp (analyze_core name (str "") content)
          have he₀ : e₀ ∈ allAltsList := hvocab e₀ (by rw [hfte]; exact List.mem_cons_self _ _)
          obtain ⟨hne₀, hlet₀⟩ := vocabLetters e₀ he₀
          obtain ⟨w₀, z, hwz⟩ : ∃ w₀ z, e₀ = w₀ ++ [z] :=
            ⟨_, _, (List.dropLast_append_getLast hne₀).symm⟩
          have hzl : isLowerAZ z = true := hlet₀ z (by rw [hwz]; simp)
          obtain ⟨hzns, hzp, hzc, hzd, -⟩ := lower_letter_props hzl
          have hwmem : ∀ c ∈ ('.' :: w₀ : Str), pyIsSpace c = false := by
            intro c hc
            rcases List.mem_cons.mp hc with rfl | h2
            · decide
            · exact (lower_letter_props (hlet₀ c (by rw [hwz]; simp [h2]))).1
          have hwnp : '(' ∉ ('.' :: w₀ : Str) := by
            intro hc
            rcases List.mem_cons.mp hc with heq | h2
            · exact absurd heq (by decide)
            · exact absurd rfl
                (lower_letter_props (hlet₀ '(' (by rw [hwz]; simp [h2]))).2.1
          have hform : assembled_description (analyze_core name (str "") content) =
              U ++ (('.' :: w₀) ++ [z]) ++ (V ++ R2) := by
            rw [hasm, hcape, hwz]
            simp [List.append_assoc]
          have hsurv : SubSeg (('.' :: w₀) ++ [z])
              (postprocess (U ++ (('.' :: w₀) ++ [z]) ++ (V ++ R2))) :=
            postprocess_subSeg U (V ++ R2) hU hwnp hzp hwmem hzns hzc hzd
          rw [← hform] at hsurv
          have hdot : (('.' :: w₀ : Str)) ++ [z] = '.' :: e₀ := by
            rw [hwz]
            simp
          rw [hdot] at hsurv
          have hgen : generate_optimized_description (analyze_core name (str "") content) =
              postprocess (assembled_description (analyze_core name (str "") content)) := rfl
          rw [← hgen] at hsurv
          have hlowfix : lowerS ('.' :: e₀) = '.' :: e₀ := by
            have hfix : ∀ c ∈ e₀, lowerC c = c :=
              fun c hc => (lower_letter_props (hlet₀ c hc)).2.2.2.2
            show lowerC '.' :: e₀.map lowerC = '.' :: e₀
            rw [show lowerC '.' = '.' from rfl]
            congr 1
            calc e₀.map lowerC = e₀.map id := List.map_congr_left hfix
              _ = e₀ := List.map_id e₀
          have hsubl : hasSub ('.' :: e₀)
              (lowerS (generate_optimized_description (analyze_core name (str "") content)))
              = true := hasSub_of_subSeg (subSeg_lowerS hlowfix hsurv)
          constructor
          · rcases hsurv with ⟨u', v', heq⟩
            rw [heq]
            simp
          · rw [hfta]
            unfold score_filetypes_pts
            rw [if_pos (by simp), if_pos ?hpos]
            case hpos =>
              have hmem : e₀ ∈ (e₀ :: ft').filter (fun ext =>
                  hasSub ('.' :: ext)
                    (lowerS (generate_optimized_description
                      (analyze_core name (str "") content)))) :=
                List.mem_filter.mpr ⟨List.mem_cons_self _ _, hsubl⟩
              exact List.length_pos.mpr (List.ne_nil_of_mem hmem)
      obtain ⟨hne, hfp⟩ := hgenne
      have hemp : (generate_optimized_description
          (analyze_core name (str "") content)).isEmpty = false := by
        cases hh : (generate_optimized_description
            (analyze_core name (str "") content)).isEmpty
        · rfl
        · exact absurd (List.isEmpty_iff.mp hh) hne
      unfold score_description
      rw [hemp]
      simp only [Bool.false_eq_true, if_false]
      rw [hfp]
      omega
    unfold choose_description
    rw [if_pos ?hcmp]
    case hcmp =>
      have h0 : score_description (str "") (analyze_core name (str "") content) = 0 := rfl
      rw [h0]
      exact hScore

/-! ## Scanner equations for C9 -/

theorem scanExtsF_fuel {alts : List Str} :
    ∀ {f₁ f₂ : Nat} {s : Str}, s.length ≤ f₁ → s.length ≤ f₂ →
      scanExtsF alts f₁ s = scanExtsF alts f₂ s := by
  intro f₁
  induction f₁ with
  | zero =>
    intro f₂ s h1 h2
    have hs : s = [] := List.length_eq_zero.mp (Nat.le_zero.mp h1)
    subst hs
    cases f₂ <;> simp [scanExtsF]
  | succ f ih =>
    intro f₂ s h1 h2
    cases f₂ with
    | zero =>
      have hs : s = [] := List.length_eq_zero.mp (Nat.le_zero.mp h2)
      subst hs
      simp [scanExtsF]
    | succ g =>
      cases s with
      | nil => simp [scanExtsF]
      | cons c cs =>
        simp only [scanExtsF]
        simp only [List.length_cons] at h1 h2
        split
        · split
          · next a heq =>
            have hlen : (cs.drop a.length).length ≤ cs.length := by
              simp [List.length_drop]
            congr 1
            exact ih (by omega) (by omega)
          · exact ih (by omega) (by omega)
        · exact ih (by omega) (by omega)

theorem scan_cons_nondot {alts : List Str} {c : Char} (hc : c ≠ '.') (s : Str) :
    scanExts alts (c :: s) = scanExts alts s := by
  show scanExtsF alts (s.length + 1) (c :: s) = scanExts alts s
  simp only [scanExtsF, if_neg hc]
  rfl

theorem scan_skip {alts : List Str} {u : Str} (hu : '.' ∉ u) (t : Str) :
    scanExts alts (u ++ t) = scanExts alts t := by
  induction u with
  | nil => simp
  | cons c cu ih =>
    have hc : c ≠ '.' := fun h => hu (h ▸ List.mem_cons_self c cu)
    rw [List.cons_append, scan_cons_nondot hc,
      ih fun h => hu (List.mem_cons_of_mem c h)]

theorem scan_dot {alts : List Str} (s : Str) :
    scanExts alts ('.' :: s) =
      match tryAlts alts s with
      | some a => a :: scanExts alts (s.drop a.length)
      | none => scanExts alts s := by
  show scanExtsF alts (s.length + 1) ('.' :: s) = _
  simp only [scanExtsF, if_pos rfl]
  cases heq : tryAlts alts s with
  | none => rfl
  | some a =>
    show a :: scanExtsF alts s.length (s.drop a.length) = _
    congr 1
    exact scanExtsF_fuel (by simp) (le_refl _)

/-! ## Matching on dotted renderings -/

theorem lowerS_of_lower {s : Str} (hs : ∀ c ∈ s, isLowerAZ c = true) :
    lowerS s = s := by
  have hfix : ∀ c ∈ s, lowerC c = c :=
    fun c hc => (lower_letter_props (hs c hc)).2.2.2.2
  calc s.map lowerC = s.map id := List.map_congr_left hfix
    _ = s := List.map_id s

theorem isWordC_of_lower {c : Char} (hc : isLowerAZ c = true) : isWordC c = true := by
  simp [isWordC, isAlphaAZ, hc]

theorem altMatches_render {a e : Str} (ha : a ≠ [] ∧ ∀ c ∈ a, isLowerAZ c = true)
    (he : e ≠ [] ∧ ∀ c ∈ e, isLowerAZ c = true)
    {sep : Str} (hsep : sep = [] ∨ ∃ s', sep = ',' :: s') :
    (altMatches a (e ++ sep) = true) ↔ a = e := by
  have hlow : lowerS (e ++ sep) = e ++ lowerS sep := by
    rw [lowerS_append, lowerS_of_lower he.2]
  constructor
  · intro hm
    simp only [altMatches, Bool.and_eq_true] at hm
    rcases hm with ⟨hpre, hbound⟩
    rcases (isPrefixOf_iff_ex _ _).mp hpre with ⟨v, hv⟩
    rw [hlow] at hv
    rcases Nat.lt_trichotomy a.length e.length with hlt | heq | hgt
    · exfalso
      have hdrope : e.drop a.length ≠ [] := by
        intro h
        have := congrArg List.length h
        simp [List.length_drop] at this
        omega
      obtain ⟨c, rest, hcr⟩ := List.exists_cons_of_ne_nil hdrope
      have hcmem : c ∈ e := List.drop_subset _ _ (hcr ▸ List.mem_cons_self c rest)
      have hdrop2 : (e ++ sep).drop a.length = c :: (rest ++ sep) := by
        rw [List.drop_append_of_le_length (by omega), hcr]
        rfl
      rw [hdrop2] at hbound
      have hbound2 : (!isWordC c) = true := hbound
      rw [isWordC_of_lower (he.2 c hcmem)] at hbound2
      exact absurd hbound2 (by decide)
    · exact List.append_inj_left hv.symm (by omega)
    · exfalso
      rcases hsep with rfl | ⟨s', rfl⟩
      · have := congrArg List.length hv
        simp [lowerS] at this
        omega
      · have hl2 : lowerS (',' :: s') = ',' :: lowerS s' := rfl
        rw [hl2] at hv
        have h2 := congrArg (List.take (e.length + 1)) hv
        rw [List.take_append, List.take_append_of_le_length (by omega)] at h2
        have h3 : e ++ [','] = a.take (e.length + 1) := h2
        have hmem : (',' : Char) ∈ a := by
          have h4 : (',' : Char) ∈ e ++ [','] :=
            List.mem_append.mpr (Or.inr (List.mem_singleton.mpr rfl))
          rw [h3] at h4
          exact List.take_subset _ _ h4
        have h5 := isLowerAZ_toNat (ha.2 _ hmem)
        have h44 : (',' : Char).toNat = 44 := rfl
        omega
  · rintro rfl
    simp only [altMatches, Bool.and_eq_true]
    refine ⟨?_, ?_⟩
    · rw [hlow]
      exact (isPrefixOf_iff_ex _ _).mpr ⟨lowerS sep, rfl⟩
    · have hdrop : (a ++ sep).drop a.length = sep := List.drop_left a sep
      rw [hdrop]
      rcases hsep with rfl | ⟨s', rfl⟩
      · rfl
      · rfl

theorem tryAlts_render {e : Str} (he : e ≠ [] ∧ ∀ c ∈ e, isLowerAZ c = true)
    {sep : Str} (hsep : sep = [] ∨ ∃ s', sep = ',' :: s') :
    ∀ alts : List Str, (∀ a ∈ alts, a ≠ [] ∧ ∀ c ∈ a, isLowerAZ c = true) →
      tryAlts alts (e ++ sep) = if e ∈ alts then some e else none := by
  intro alts
  induction alts with
  | nil => intro _; simp [tryAlts]
  | cons a alts' ih =>
    intro halts
    have ha := halts a (List.mem_cons_self a alts')
    have ihh := ih fun x hx => halts x (List.mem_cons_of_mem a hx)
    simp only [tryAlts] at ihh ⊢
    rw [List.find?_cons]
    cases hpa : altMatches a (e ++ sep) with
    | true =>
      have hae : a = e := (altMatches_render ha he hsep).mp hpa
      rw [if_pos (hae ▸ List.mem_cons_self a alts'), hae]
    | false =>
      have hne : a ≠ e := fun h => by
        rw [(altMatches_render ha he hsep).mpr h] at hpa
        cases hpa
      rw [ihh]
      by_cases hmem : e ∈ alts'
      · rw [if_pos hmem, if_pos (List.mem_cons_of_mem a hmem)]
      · rw [if_neg hmem, if_neg ?hne2]
        case hne2 =>
          intro hcon
          rcases List.mem_cons.mp hcon with h | h
          · exact hne h.symm
          · exact hmem h

theorem no_dot_of_lower {e : Str} (he : ∀ c ∈ e, isLowerAZ c = true) : '.' ∉ e :=
  fun hd => ((lower_letter_props (he _ hd)).2.2.2.1) rfl

theorem scan_renderD {alts : List Str}
    (halts : ∀ a ∈ alts, a ≠ [] ∧ ∀ c ∈ a, isLowerAZ c = true) :
    ∀ {L : List Str}, (∀ e ∈ L, e ≠ [] ∧ ∀ c ∈ e, isLowerAZ c = true) →
      scanExts alts (render_dotted L) = L.filter (fun e => decide (e ∈ alts)) := by
  intro L
  induction L with
  | nil => intro _; rfl
  | cons e L' ih =>
    intro hL
    have he := hL e (List.mem_cons_self e L')
    have ihh := ih fun x hx => hL x (List.mem_cons_of_mem e hx)
    cases L' with
    | nil =>
      have hr : render_dotted [e] = '.' :: e := by
        simp [render_dotted, joinSep]
      have htry : tryAlts alts e = if e ∈ alts then some e else none := by
        have h := tryAlts_render he (Or.inl rfl) alts halts
        rwa [List.append_nil] at h
      rw [hr, scan_dot, htry]
      by_cases hmem : e ∈ alts
      · rw [if_pos hmem]
        show e :: scanExts alts (e.drop e.length) = _
        rw [List.drop_length]
        simp [scanExts, scanExtsF, List.filter_cons, hmem]
      · rw [if_neg hmem]
        show scanExts alts e = _
        have h0 : scanExts alts (e ++ []) = scanExts alts [] :=
          scan_skip (no_dot_of_lower he.2) []
        rw [List.append_nil] at h0
        rw [h0]
        simp [scanExts, scanExtsF, List.filter_cons, hmem]
    | cons x t =>
      have hr : render_dotted (e :: x :: t) =
          '.' :: (e ++ (str ", " ++ render_dotted (x :: t))) := by
        simp [render_dotted, joinSep, List.cons_append, List.append_assoc]
      have hsep2 : ∃ s', str ", " ++ render_dotted (x :: t) = ',' :: s' :=
        ⟨' ' :: render_dotted (x :: t), rfl⟩
      have htry := tryAlts_render he (Or.inr hsep2) alts halts
      rw [hr, scan_dot, htry]
      have hcomma : '.' ∉ str ", " := by decide
      by_cases hmem : e ∈ alts
      · rw [if_pos hmem]
        show e :: scanExts alts ((e ++ (str ", " ++ render_dotted (x :: t))).drop e.length) = _
        rw [List.drop_left, scan_skip hcomma, ihh]
        simp [List.filter_cons, hmem]
      · rw [if_neg hmem]
        show scanExts alts (e ++ (str ", " ++ render_dotted (x :: t))) = _
        rw [scan_skip (no_dot_of_lower he.2), scan_skip hcomma, ihh]
        simp [List.filter_cons, hmem]

theorem scanP_tail {alts : List Str} {c : Char} {cs : Str}
    (h : scanExts alts (c :: cs) = []) : scanExts alts cs = [] := by
  by_cases hc : c = '.'
  · subst hc
    rw [scan_dot] at h
    cases heq : tryAlts alts cs with
    | none => rwa [heq] at h
    | some a => rw [heq] at h; cases h
  · rwa [scan_cons_nondot hc] at h

theorem scanP_drop {alts : List Str} :
    ∀ (k : Nat) {s : Str}, scanExts alts s = [] → scanExts alts (s.drop k) = [] := by
  intro k
  induction k with
  | zero => intro s h; simpa using h
  | succ k ih =>
    intro s h
    cases s with
    | nil => simpa using h
    | cons c cs =>
      rw [List.drop_succ_cons]
      exact ih (scanP_tail h)

theorem prim_extra_disjoint : ∀ a ∈ extraAltsList, a ∉ primAltsList := by decide

theorem scanA_sub_extra :
    ∀ (n : Nat) (s : Str), s.length ≤ n → scanExts primAltsList s = [] →
      ∀ a ∈ scanExts allAltsList s, a ∈ extraAltsList := by
  intro n
  induction n with
  | zero =>
    intro s hlen _ a ha
    have hs : s = [] := List.length_eq_zero.mp (Nat.le_zero.mp hlen)
    subst hs
    simp [scanExts, scanExtsF] at ha
  | succ n ih =>
    intro s hlen hprim a ha
    cases s with
    | nil => simp [scanExts, scanExtsF] at ha
    | cons c cs =>
      simp only [List.length_cons] at hlen
      by_cases hc : c = '.'
      · subst hc
        rw [scan_dot] at ha hprim
        cases hp : tryAlts primAltsList cs with
        | some b => rw [hp] at hprim; cases hprim
        | none =>
          rw [hp] at hprim
          have hfind : List.find? (fun x => altMatches x cs) primAltsList = none := hp
          have htall : tryAlts allAltsList cs = tryAlts extraAltsList cs := by
            simp only [tryAlts, allAltsList]
            rw [List.find?_append, hfind]
            rfl
          rw [htall] at ha
          cases he2 : tryAlts extraAltsList cs with
          | none =>
            rw [he2] at ha
            exact ih cs (by omega) hprim a ha
          | some b =>
            rw [he2] at ha
            rcases List.mem_cons.mp ha with rfl | ha2
            · exact List.mem_of_find?_eq_some
                (show List.find? (fun x => altMatches x cs) extraAltsList = some a from he2)
            · have hlen2 : (cs.drop b.length).length ≤ n := by
                rw [List.length_drop]
                omega
              exact ih _ hlen2 (scanP_drop _ hprim) a ha2
      · rw [scan_cons_nondot hc] at ha hprim
        exact ih cs (by omega) hprim a ha

theorem dkf_of_nodup : ∀ {l : List Str}, l.Nodup → dkf l = l := by
  intro l
  induction l with
  | nil => intro _; rfl
  | cons x xs ih =>
    intro hnd
    rw [List.nodup_cons] at hnd
    simp only [dkf]
    rw [ih hnd.2]
    congr 1
    refine List.filter_eq_self.mpr fun y hy => ?_
    have hne : y ≠ x := fun heq => hnd.1 (heq ▸ hy)
    simp [hne]

theorem sortStr_sorted (l : List Str) :
    List.Sorted (fun a b : Str => a ≤ b) (sortStr l) := by
  haveI : IsTotal Str (fun a b : Str => a ≤ b) := ⟨fun a b => le_total a b⟩
  haveI : IsTrans Str (fun a b : Str => a ≤ b) := ⟨fun a b c => le_trans⟩
  exact List.sorted_insertionSort _ l

theorem sortStr_eq_of_sorted {l : List Str}
    (h : List.Sorted (fun a b : Str => a ≤ b) l) : sortStr l = l :=
  List.Sorted.insertionSort_eq h

theorem sortStr_nodup {l : List Str} (h : l.Nodup) : (sortStr l).Nodup :=
  (List.perm_insertionSort _ l).nodup_iff.mpr h

theorem sortStr_ne_nil {l : List Str} (h : l ≠ []) : sortStr l ≠ [] := by
  intro h0
  have hl := (List.perm_insertionSort (fun a b : Str => a ≤ b) l).length_eq
  rw [show List.insertionSort (fun a b : Str => a ≤ b) l = sortStr l from rfl, h0] at hl
  exact h (List.length_eq_zero.mp hl.symm)

theorem find_file_types_sorted_nodup (content : Str) :
    List.Sorted (fun a b : Str => a ≤ b) (find_file_types content) ∧
      (find_file_types content).Nodup := by
  simp only [find_file_types]
  split
  · exact ⟨sortStr_sorted _, sortStr_nodup (dkf_nodup _)⟩
  · split
    · exact ⟨sortStr_sorted _, sortStr_nodup ((dkf_nodup _).filter _)⟩
    · exact ⟨sortStr_sorted _, sortStr_nodup (dkf_nodup _)⟩

theorem primLetters : ∀ a ∈ primAltsList, a ≠ [] ∧ ∀ c ∈ a, isLowerAZ c = true := by
  decide

/-- C9 (amended): `find_file_types` is a fixed point on the dotted rendering
of its own output: for every input string, re-running the detector on the
comma-joined dotted form `.pdf, .docx` of the detected extensions returns
exactly the detected extensions. -/
theorem claim9_amended (content : Str) :
    find_file_types (render_dotted (find_file_types content)) =
      find_file_types content := by
  have hsub : ∀ e ∈ find_file_types content, e ∈ allAltsList :=
    find_file_types_subset content
  have hlet : ∀ e ∈ find_file_types content, e ≠ [] ∧ ∀ c ∈ e, isLowerAZ c = true :=
    fun e he => vocabLetters e (hsub e he)
  have hsn := find_file_types_sorted_nodup content
  have hscanA : scanExts allAltsList (render_dotted (find_file_types content)) =
      (find_file_types content).filter (fun e => decide (e ∈ allAltsList)) :=
    scan_renderD vocabLetters hlet
  have hscanA2 : scanExts allAltsList (render_dotted (find_file_types content)) =
      find_file_types content := by
    rw [hscanA]
    exact List.filter_eq_self.mpr fun e he => decide_eq_true (hsub e he)
  have hscanP : scanExts primAltsList (render_dotted (find_file_types content)) =
      (find_file_types content).filter (fun e => decide (e ∈ primAltsList)) :=
    scan_renderD primLetters hlet
  by_cases hpm : scanExts primAltsList content = []
  · -- fallback branches: every detected extension comes from the extra vocabulary
    have hextra : ∀ e ∈ find_file_types content, e ∈ extraAltsList := by
      intro e he
      have hmem_am : e ∈ scanExts allAltsList content := by
        simp only [find_file_types] at he
        rw [if_neg (not_not_intro hpm)] at he
        split at he
        · exact (dkf_mem _ _).mp (List.mem_of_mem_filter (sortStr_mem.mp he))
        · exact (dkf_mem _ _).mp (sortStr_mem.mp he)
      exact scanA_sub_extra content.length content (le_refl _) hpm e hmem_am
    have hnotprim : ∀ e ∈ find_file_types content, e ∉ primAltsList :=
      fun e he => prim_extra_disjoint e (hextra e he)
    have hPnil : scanExts primAltsList (render_dotted (find_file_types content)) = [] := by
      rw [hscanP]
      refine List.filter_eq_nil_iff.mpr fun e he => ?_
      simp [hnotprim e he]
    by_cases hdoc : (dkf (scanExts allAltsList content)).filter
        (fun e => !(decide (e ∈ codeExtList))) = []
    · -- the original run also fell back to all extensions: everything is code-like
      have hffc : find_file_types content = sortStr (dkf (scanExts allAltsList content)) := by
        simp only [find_file_types]
        rw [if_neg (not_not_intro hpm), if_neg (not_not_intro hdoc)]
      have hcode : ∀ e ∈ find_file_types content, e ∈ codeExtList := by
        intro e he
        rw [hffc] at he
        have h1 := sortStr_mem.mp he
        have h2 := List.filter_eq_nil_iff.mp hdoc e h1
        simpa using h2
      have hf2 : (find_file_types content).filter
          (fun e => !(decide (e ∈ codeExtList))) = [] :=
        List.filter_eq_nil_iff.mpr fun e he => by simp [hcode e he]
      obtain ⟨L, hL⟩ : ∃ L, find_file_types content = L := ⟨_, rfl⟩
      rw [hL] at hPnil hscanA2 hsn hf2 ⊢
      simp only [find_file_types]
      rw [if_neg (not_not_intro hPnil), hscanA2, dkf_of_nodup hsn.2,
        if_neg (not_not_intro hf2), sortStr_eq_of_sorted hsn.1]
    · -- the original run kept the non-code extensions
      have hffc : find_file_types content = sortStr
          ((dkf (scanExts allAltsList content)).filter
            (fun e => !(decide (e ∈ codeExtList)))) := by
        simp only [find_file_types]
        rw [if_neg (not_not_intro hpm), if_pos hdoc]
      have hnocode : ∀ e ∈ find_file_types content, e ∉ codeExtList := by
        intro e he
        rw [hffc] at he
        have h2 := List.of_mem_filter (sortStr_mem.mp he)
        simpa using h2
      have hf2 : (find_file_types content).filter
          (fun e => !(decide (e ∈ codeExtList))) = find_file_types content :=
        List.filter_eq_self.mpr fun e he => by simp [hnocode e he]
      have hne : find_file_types content ≠ [] := by
        rw [hffc]
        exact sortStr_ne_nil hdoc
      obtain ⟨L, hL⟩ : ∃ L, find_file_types content = L := ⟨_, rfl⟩
      rw [hL] at hPnil hscanA2 hsn hf2 hne ⊢
      simp only [find_file_types]
      rw [if_neg (not_not_intro hPnil), hscanA2, dkf_of_nodup hsn.2,
        if_pos (by rw [hf2]; exact hne), hf2, sortStr_eq_of_sorted hsn.1]
  · -- primary branch: the detected extensions all lie in the primary vocabulary
    have hffc : find_file_types content =
        sortStr (dkf (scanExts primAltsList content)) := by
      simp only [find_file_types]
      rw [if_pos hpm]
    have hLprim : ∀ e ∈ find_file_types content, e ∈ primAltsList := by
      intro e he
      rw [hffc] at he
      exact scanExtsF_subset _ ((dkf_mem _ _).mp (sortStr_mem.mp he))
    have hLne : find_file_types content ≠ [] := by
      rw [hffc]
      refine sortStr_ne_nil fun h => ?_
      cases hpmc : scanExts primAltsList content with
      | nil => exact hpm hpmc
      | cons x xs => rw [hpmc] at h; simp [dkf] at h
    have hPfull : scanExts primAltsList (render_dotted (find_file_types content)) =
        find_file_types content := by
      rw [hscanP]
      exact List.filter_eq_self.mpr fun e he => decide_eq_true (hLprim e he)
    obtain ⟨L, hL⟩ : ∃ L, find_file_types content = L := ⟨_, rfl⟩
    rw [hL] at hPfull hsn hLne ⊢
    simp only [find_file_types]
    rw [if_pos (by rw [hPfull]; exact hLne), hPfull, dkf_of_nodup hsn.2,
      sortStr_eq_of_sorted hsn.1]

/-- C9 (counterexample): the claim that re-running `find_file_types` on
the comma-joined rendering of its own output reproduces the output is
false for the bare (undotted) rendering the analyzer prints: the rendering
"pdf" of `["pdf"]` contains no dot, so the extension regexes match nothing
and the re-run returns `[]`. -/
theorem claim9_counterexample :
    find_file_types (str "a .pdf form") ≠ [] ∧
    find_file_types (render_plain (find_file_types (str "a .pdf form"))) ≠
      find_file_types (str "a .pdf form") := by decide

/-! ## Claim C2 — no angle brackets in the generated description -/

/-- C2 (counterexample): the claim "for every AnalysisResult the generated
description contains no raw angle bracket, including when the
trigger/catch-all fragments are filled from an arbitrary skill name" is
false: a skill name consisting of a single angle bracket flows verbatim
into the capability, trigger and catch-all fragments, and nothing in the
generator or its post-processing removes it. -/
theorem claim2_counterexample :
    '<' ∈ generate_optimized_description ⟨str "<", [], [], [], [], [], []⟩ := by decide

/-- C2 (amended): the generated description contains no raw angle bracket
provided the analysis fields it is built from — the skill name, the action
verbs, the file types, the headings and the estimated scenarios — contain
none; every template literal is angle-free and the post-processing steps
never introduce characters other than a space. -/
theorem claim2_amended (a : AnalysisResult) (hname : NoAngle a.name)
    (hverbs : ∀ v ∈ a.action_verbs, NoAngle v)
    (hft : ∀ e ∈ a.file_types, NoAngle e)
    (hh : ∀ h ∈ a.headings, NoAngle h)
    (hsc : ∀ s ∈ a.estimated_scenarios, NoAngle s) :
    NoAngle (generate_optimized_description a) :=
  noAngle_postprocess (noAngle_assembled hname hverbs hft hh hsc)

/-- C2 (witness): a concrete analysis with angle-free fields, with the
amended claim applied to it. -/
theorem claim2_witness :
    (NoAngle recPdf.name ∧ (∀ v ∈ recPdf.action_verbs, NoAngle v) ∧
      (∀ e ∈ recPdf.file_types, NoAngle e) ∧ (∀ h ∈ recPdf.headings, NoAngle h) ∧
      (∀ s ∈ recPdf.estimated_scenarios, NoAngle s)) ∧
    NoAngle (generate_optimized_description recPdf) :=
  ⟨⟨by decide, by decide, by decide, by decide, by decide⟩,
   claim2_amended recPdf (by decide) (by decide) (by decide) (by decide) (by decide)⟩

/-! ## Claim C1 — generated description length -/

/-- C1 (counterexample): the claim "for every AnalysisResult with 0-10
action verbs, 0-6 file types, 0-5 scenarios (name, headings, scenario
texts arbitrary strings) the generated description has length at most 1024
after post-processing" is false: an analysis with no verbs, no file types,
no scenarios and a 400-character name yields a post-processed description
longer than 1024 characters (the two mitigations remove nothing relevant
and the final cleanup only trims edges). -/
theorem claim1_counterexample :
    1024 < (generate_optimized_description
      ⟨List.replicate 400 'a', [], [], [], [], [], []⟩).length := by decide

/-- C1 (amended): post-processing never lengthens the description, so
whenever the assembled templated description is within the 1024 limit the
returned description is as well (for every AnalysisResult; the 0-10 / 0-6
/ 0-5 cardinality bounds of the original claim are in particular
irrelevant). -/
theorem claim1_amended (a : AnalysisResult)
    (h : (assembled_description a).length ≤ 1024) :
    (generate_optimized_description a).length ≤ 1024 :=
  le_trans (postprocess_length_le _) h

/-- C1 (witness): a concrete analysis whose assembled description is
within the limit, with the amended claim applied to it. -/
theorem claim1_witness :
    (assembled_description recEmpty).length ≤ 1024 ∧
    (generate_optimized_description recEmpty).length ≤ 1024 :=
  ⟨by decide, claim1_amended recEmpty (by decide)⟩

/-! ## Claim C3 — the scorer is pure, bounded, and zero on empty input -/

/-- C3: `score_description` is a pure function (identical inputs give the
identical value), its value is always at most 100 (it is a sum of
components bounded by 10+20+20+15+10+10+15, and a natural number, hence
also at least 0), and the empty description scores exactly 0 whatever the
analysis argument is. -/
theorem claim3_score (d₁ d₂ : Str) (a₁ a₂ : AnalysisResult) :
    (d₁ = d₂ → a₁ = a₂ → score_description d₁ a₁ = score_description d₂ a₂) ∧
    score_description d₁ a₁ ≤ 100 ∧ score_description [] a₁ = 0 := by
  refine ⟨fun h1 h2 => by rw [h1, h2], ?_, rfl⟩
  have l1 : score_length_pts d₁ ≤ 10 := by
    unfold score_length_pts; split_ifs <;> omega
  have l2 : score_trigger_pts d₁ ≤ 20 := by
    unfold score_trigger_pts; split_ifs <;> omega
  have l3 : score_enum_pts d₁ ≤ 20 := by
    unfold score_enum_pts; split_ifs <;> omega
  have l4 : score_filetypes_pts d₁ a₁.file_types ≤ 15 := by
    unfold score_filetypes_pts; split_ifs <;> omega
  have l5 : score_catchall_pts d₁ ≤ 10 := by
    unfold score_catchall_pts; split_ifs <;> omega
  have l6 : score_examples_pts d₁ ≤ 10 := by
    unfold score_examples_pts; split_ifs <;> omega
  have l7 : score_antipattern_pts d₁ ≤ 15 := by
    unfold score_antipattern_pts; split_ifs <;> omega
  unfold score_description
  split
  · omega
  · omega

/-- C3 (witness): the theorem applied at a concrete description and
analysis, discharging the equality hypotheses of the purity conjunct. -/
theorem claim3_witness :
    score_description (str "x") recEmpty = score_description (str "x") recEmpty ∧
    score_description (str "x") recEmpty ≤ 100 ∧
    score_description [] recEmpty = 0 :=
  ⟨(claim3_score (str "x") (str "x") recEmpty recEmpty).1 rfl rfl,
   (claim3_score (str "x") (str "x") recEmpty recEmpty).2.1,
   (claim3_score (str "x") (str "x") recEmpty recEmpty).2.2⟩

/-! ## Claim C5 — a description passing the rubric gets no suggestions -/

/-- C5 (counterexample): the claim "a description satisfying every scorer
rubric check (trigger phrase present, at least one enumerated scenario,
every detected file type mentioned or none detected, length within the
scored range, no anti-pattern) receives an empty suggestion list" is
false: `exDesc5` (94 characters) earns length points (it is within the
scored 50-1000 range) and passes the other four checks, yet the advisor —
which demands at least 100 characters — still emits an EXPAND
suggestion. -/
theorem claim5_counterexample :
    score_trigger_pts exDesc5 = 20 ∧ 0 < score_enum_pts exDesc5 ∧
    score_filetypes_pts exDesc5 recEmpty.file_types = 15 ∧
    0 < score_length_pts exDesc5 ∧ score_antipattern_pts exDesc5 = 15 ∧
    suggest_improvements exDesc5 (str "") recEmpty ≠ [] := by decide

/-- C5 (amended): a description satisfying every check of the Improvement
Advisor itself — the advisor trigger pattern `use (this skill )?when`, at
least one enumerated scenario, every detected file type's dotted extension
mentioned, length in [100, 900], and no body-reference phrase — receives
an empty suggestion list. -/
theorem claim5_amended (current generated : Str) (a : AnalysisResult)
    (h1 : hasTriggerAdvisor current = true)
    (h2 : enumCount current ≠ 0)
    (h3 : ∀ ext ∈ a.file_types, hasSub ('.' :: ext) (lowerS current) = true)
    (h4 : 100 ≤ current.length)
    (h5 : current.length ≤ 900)
    (h6 : hasSub (str "see skill.md") (lowerS current) = false)
    (h7 : hasSub (str "refer to") (lowerS current) = false)
    (h8 : hasSub (str "see below") (lowerS current) = false) :
    suggest_improvements current generated a = [] := by
  have hmiss : a.file_types.filter (fun ext => !hasSub ('.' :: ext) (lowerS current)) = [] := by
    rw [List.filter_eq_nil_iff]
    intro ext hext
    simp [h3 ext hext]
  have l1 : ¬ current.length < 100 := by omega
  have l2 : ¬ 900 < current.length := by omega
  simp [suggest_improvements, h1, h2, hmiss, l1, l2, h6, h7, h8]

/-- C5 (witness): a concrete description passing every advisor check
against `recPdf`, with the amended claim applied to it. -/
theorem claim5_witness :
    (hasTriggerAdvisor exDesc5w = true ∧ enumCount exDesc5w ≠ 0 ∧
      (∀ ext ∈ recPdf.file_types, hasSub ('.' :: ext) (lowerS exDesc5w) = true) ∧
      100 ≤ exDesc5w.length ∧ exDesc5w.length ≤ 900) ∧
    suggest_improvements exDesc5w (str "") recPdf = [] :=
  ⟨⟨by decide, by decide, by decide, by decide, by decide⟩,
   claim5_amended exDesc5w (str "") recPdf (by decide) (by decide) (by decide)
     (by decide) (by decide) (by decide) (by decide) (by decide)⟩

/-! ## Claim C10 — bare-extension mismatch between the three checks -/

/-- C10: the analyzer's quality check accepts a bare-extension substring
while the scorer and the advisor demand the dotted form: for the concrete
description `exDesc10` (which contains "pdf" but not ".pdf") with detected
file types `["pdf"]`, no file-types quality issue is raised, the scorer's
file-type component awards 0 of its 15 points, and the advisor emits the
"ADD file extensions: .pdf" suggestion. -/
theorem claim10_mismatch :
    find_file_types (str "works with .pdf forms") ≠ [] ∧
    hasSub (str "pdf") (lowerS exDesc10) = true ∧
    hasSub (str ".pdf") (lowerS exDesc10) = false ∧
    ftIssueMsg (find_file_types (str "works with .pdf forms")) ∉
      quality_issues_of exDesc10 (find_file_types (str "works with .pdf forms")) ∧
    score_filetypes_pts exDesc10 (find_file_types (str "works with .pdf forms")) = 0 ∧
    (str "ADD file extensions: .pdf") ∈
      suggest_improvements exDesc10 (str "")
        ⟨str "s", [], find_file_types (str "works with .pdf forms"), [], [], [], []⟩ := by
  decide

end SkillOpt
